import Mathlib

/-!
Shallow embedding of the clustering / deduplication / ranking core of the
`ai-news-radar` pipeline (files `src/schemas.py`, `src/processor/clusterer.py`,
`src/collector/apify_client.py`, `src/processor/dedup.py`,
`src/processor/ranker.py`), together with proofs of the specification claims.

Modelling conventions:
* Python `int` counts are modelled as `Nat`, python `float` scores as `Rat`
  (the claims under verification depend only on comparisons, never on IEEE
  rounding), `datetime` values as epoch seconds (`Int`).
* External libraries (`hdbscan`, `jieba`) and external I/O (the LLM ranking
  call, the history files on disk) are abstracted as explicit function /
  oracle parameters; everything written in the repository itself is
  translated directly.
* Python in-place mutation of `cluster_id` is modelled by returning updated
  records; Python `dict` (insertion-ordered) is modelled by association
  lists with in-place value update.
-/

namespace AINewsRadar

/-- Raw tweet record, from `TweetRaw` in `src/schemas.py`.  `created_at` is an
optional timestamp in epoch seconds. -/
structure TweetRaw where
  tweet_id : String
  author_handle : String
  author_name : String
  text : String
  created_at : Option Int
  retweet_count : Nat
  like_count : Nat
  reply_count : Nat
  quote_count : Nat
deriving DecidableEq

/-- Engagement score, from the `engagement` property of `TweetRaw` in
`src/schemas.py`: sum of retweets, likes, replies and quotes. -/
def TweetRaw.engagement (t : TweetRaw) : Nat :=
  t.retweet_count + t.like_count + t.reply_count + t.quote_count

/-- Tweet with embedding vector attached, from `TweetEmbedded` in
`src/schemas.py`.  `cluster_id = -1` denotes noise. -/
structure TweetEmbedded where
  tweet : TweetRaw
  embedding : List Rat
  cluster_id : Int
deriving DecidableEq

/-- The cluster-id-independent content of an embedded tweet, used to state
partition invariants (the clusterer overwrites `cluster_id`). -/
def TweetEmbedded.content (t : TweetEmbedded) : TweetRaw × List Rat :=
  (t.tweet, t.embedding)

/-- Event card, from `EventCard` in `src/schemas.py` (fields not consumed by
the ranker or the historical deduplicator are omitted). -/
structure EventCard where
  event_id : String
  title : String
  importance : Rat
  cluster_size : Nat
deriving DecidableEq

/-! ### Stable descending sort

Python's `list.sort(key=..., reverse=True)` / `sorted(key=..., reverse=True)`
is a stable sort used descending.  We model it with insertion sort: an
element is inserted in front of the first element with a strictly smaller
key, so that elements with equal keys keep their original relative order,
exactly as CPython's stable sort does. -/

/-- Insert `x` in front of the first element whose key is strictly below
`key x` (stability: `x` goes after earlier elements with an equal key). -/
def insertDescBy {α β : Type} [LinearOrder β] (key : α → β) (x : α) :
    List α → List α
  | [] => [x]
  | y :: ys => if key y ≤ key x then x :: y :: ys else y :: insertDescBy key x ys

/-- Stable sort in descending key order (model of Python
`sorted(..., key=key, reverse=True)`). -/
def sortDescBy {α β : Type} [LinearOrder β] (key : α → β) : List α → List α
  | [] => []
  | x :: xs => insertDescBy key x (sortDescBy key xs)

theorem insertDescBy_perm {α β : Type} [LinearOrder β] (key : α → β) (x : α)
    (l : List α) : (insertDescBy key x l).Perm (x :: l) := by
  induction l with
  | nil => simp [insertDescBy]
  | cons y ys ih =>
    by_cases h : key y ≤ key x
    · simp [insertDescBy, h]
    · simp only [insertDescBy, if_neg h]
      exact (ih.cons y).trans (List.Perm.swap x y ys)

theorem sortDescBy_perm {α β : Type} [LinearOrder β] (key : α → β)
    (l : List α) : (sortDescBy key l).Perm l := by
  induction l with
  | nil => simp [sortDescBy]
  | cons x xs ih =>
    exact (insertDescBy_perm key x (sortDescBy key xs)).trans (ih.cons x)

theorem insertDescBy_pairwise {α β : Type} [LinearOrder β] (key : α → β)
    (x : α) (l : List α) (h : l.Pairwise (fun a b => key b ≤ key a)) :
    (insertDescBy key x l).Pairwise (fun a b => key b ≤ key a) := by
  induction l with
  | nil => simp [insertDescBy]
  | cons y ys ih =>
    rcases List.pairwise_cons.1 h with ⟨hy, hys⟩
    by_cases hk : key y ≤ key x
    · simp only [insertDescBy, if_pos hk]
      refine List.pairwise_cons.2 ⟨?_, h⟩
      intro z hz
      rcases List.mem_cons.1 hz with hz | hz
      · exact hz ▸ hk
      · exact le_trans (hy z hz) hk
    · simp only [insertDescBy, if_neg hk]
      refine List.pairwise_cons.2 ⟨?_, ih hys⟩
      intro z hz
      have hz' := (insertDescBy_perm key x ys).mem_iff.1 hz
      rcases List.mem_cons.1 hz' with hz' | hz'
      · subst hz'
        exact le_of_lt (lt_of_not_le hk)
      · exact hy z hz'

theorem sortDescBy_pairwise {α β : Type} [LinearOrder β] (key : α → β)
    (l : List α) : (sortDescBy key l).Pairwise (fun a b => key b ≤ key a) := by
  induction l with
  | nil => simp [sortDescBy]
  | cons x xs ih => exact insertDescBy_pairwise key x _ ih

/-- A list already sorted in descending key order is a fixed point of
`sortDescBy` (this is how stability shows up in the idempotence proofs). -/
theorem sortDescBy_of_pairwise {α β : Type} [LinearOrder β] (key : α → β) :
    ∀ l : List α, l.Pairwise (fun a b => key b ≤ key a) → sortDescBy key l = l
  | [], _ => rfl
  | x :: xs, h => by
    rcases List.pairwise_cons.1 h with ⟨hx, hxs⟩
    rw [sortDescBy, sortDescBy_of_pairwise key xs hxs]
    cases xs with
    | nil => rfl
    | cons y ys => simp [insertDescBy, hx y (by simp)]

theorem sortDescBy_length {α β : Type} [LinearOrder β] (key : α → β)
    (l : List α) : (sortDescBy key l).length = l.length :=
  (sortDescBy_perm key l).length_eq

theorem sortDescBy_mem {α β : Type} [LinearOrder β] (key : α → β)
    (l : List α) (x : α) : x ∈ sortDescBy key l ↔ x ∈ l :=
  (sortDescBy_perm key l).mem_iff

/-! ### Fixed-size chunking

Model of the Python idiom `[l[i:i+n] for i in range(0, len(l), n)]`, used
both for the mega-cluster fallback split (`n = MAX_CLUSTER_SIZE`) and for
noise batching (`n = NOISE_BATCH_SIZE`). -/

/-- Fuel-indexed chunking worker; the fuel (instantiated with the list
length, which bounds the recursion depth) keeps the recursion structural so
that the function reduces inside the kernel. -/
def chunksOfAux {α : Type} (n : Nat) : Nat → List α → List (List α)
  | 0, _ => []
  | _, [] => []
  | fuel + 1, x :: xs =>
      (x :: xs.take (n - 1)) :: chunksOfAux n fuel (xs.drop (n - 1))

/-- Split a list into consecutive chunks; the first chunk is
`l.take n`, then recurse on `l.drop n`. -/
def chunksOf {α : Type} (n : Nat) (l : List α) : List (List α) :=
  chunksOfAux n l.length l

theorem chunksOfAux_congr {α : Type} (n : Nat) :
    ∀ fuel₁ fuel₂ (l : List α), l.length ≤ fuel₁ → l.length ≤ fuel₂ →
      chunksOfAux n fuel₁ l = chunksOfAux n fuel₂ l := by
  intro fuel₁
  induction fuel₁ with
  | zero =>
      intro fuel₂ l h1 h2
      have : l = [] := List.eq_nil_of_length_eq_zero (by omega)
      subst this
      cases fuel₂ <;> rfl
  | succ f ih =>
      intro fuel₂ l h1 h2
      cases l with
      | nil => cases fuel₂ <;> rfl
      | cons x xs =>
          cases fuel₂ with
          | zero => simp at h2
          | succ f₂ =>
              rw [chunksOfAux, chunksOfAux]
              congr 1
              apply ih
              · have := (List.drop_sublist (n - 1) xs).length_le
                simp only [List.length_cons] at h1
                omega
              · have := (List.drop_sublist (n - 1) xs).length_le
                simp only [List.length_cons] at h2
                omega

theorem chunksOf_nil {α : Type} (n : Nat) : chunksOf n ([] : List α) = [] := rfl

theorem chunksOf_cons {α : Type} (n : Nat) (x : α) (xs : List α) :
    chunksOf n (x :: xs) =
      (x :: xs.take (n - 1)) :: chunksOf n (xs.drop (n - 1)) := by
  rw [chunksOf, List.length_cons, chunksOfAux, chunksOf]
  congr 1
  apply chunksOfAux_congr
  · exact (List.drop_sublist (n - 1) xs).length_le
  · exact le_refl _

theorem chunksOf_flatten {α : Type} (n : Nat) :
    ∀ l : List α, (chunksOf n l).flatten = l
  | [] => rfl
  | x :: xs => by
    rw [chunksOf_cons]
    simp only [List.flatten_cons]
    rw [chunksOf_flatten n (xs.drop (n - 1))]
    simp [List.take_append_drop]
termination_by l => l.length
decreasing_by
  simp only [List.length_cons, List.length_drop]
  omega

theorem chunksOf_ne_nil {α : Type} (n : Nat) :
    ∀ l : List α, ∀ c ∈ chunksOf n l, c ≠ []
  | [], c, hc => by simp [chunksOf_nil] at hc
  | x :: xs, c, hc => by
    rw [chunksOf_cons] at hc
    rcases List.mem_cons.1 hc with hc | hc
    · simp [hc]
    · exact chunksOf_ne_nil n (xs.drop (n - 1)) c hc
termination_by l => l.length
decreasing_by
  simp only [List.length_cons, List.length_drop]
  omega

theorem chunksOf_length_le {α : Type} (n : Nat) (hn : 1 ≤ n) :
    ∀ l : List α, ∀ c ∈ chunksOf n l, c.length ≤ n
  | [], c, hc => by simp [chunksOf_nil] at hc
  | x :: xs, c, hc => by
    rw [chunksOf_cons] at hc
    rcases List.mem_cons.1 hc with hc | hc
    · subst hc
      simp only [List.length_cons]
      have : (xs.take (n - 1)).length ≤ n - 1 := by
        simp [List.length_take]
      omega
    · exact chunksOf_length_le n hn (xs.drop (n - 1)) c hc
termination_by l => l.length
decreasing_by
  simp only [List.length_cons, List.length_drop]
  omega

/-! ### Clusterer (`src/processor/clusterer.py`)

The external `hdbscan.HDBSCAN(...).fit_predict(distance_matrix)` call is a
third-party library, abstracted as a labelling oracle
`List TweetEmbedded → List Int` (one label per item, `-1` = noise); the
numeric distance-matrix construction only feeds that call and so is absorbed
into the oracle.  Everything else in `clusterer.py` is translated
line by line. -/

def NOISE_TOP_K : Nat := 15

def NOISE_BATCH_SIZE : Nat := 5

def MAX_CLUSTER_SIZE : Nat := 30

/-- Clusterer configuration, from `Clusterer.__init__`.  Both fields are
consumed only by the external HDBSCAN call (which the labelling oracles
abstract), so they do not otherwise appear in the model. -/
structure Clusterer where
  min_cluster_size : Nat := 2
  threshold : Rat := 82 / 100

/-- Association-list groups keyed by cluster id: model of the Python
insertion-ordered `dict[int, list[TweetEmbedded]]`. -/
abbrev Groups := List (Int × List TweetEmbedded)

/-- Model of `groups.setdefault(cid, []).append(t)`: append `t` to the entry
with key `cid`, creating that entry at the end when absent. -/
def addToGroups (g : Groups) (cid : Int) (t : TweetEmbedded) : Groups :=
  match g with
  | [] => [(cid, [t])]
  | (k, ms) :: rest =>
      if k = cid then (k, ms ++ [t]) :: rest
      else (k, ms) :: addToGroups rest cid t

/-- One step of the `(groups, noise)` build: a `-1`-labelled item goes to
the noise list, anything else into its cluster's group. -/
def partitionStep (acc : Groups × List TweetEmbedded)
    (p : TweetEmbedded × Int) : Groups × List TweetEmbedded :=
  if p.2 = -1 then (acc.1, acc.2 ++ [p.1])
  else (addToGroups acc.1 p.2 p.1, acc.2)

/-- One pass over labelled items building `(groups, noise)`, the model of the
loop `for t: if label == -1: noise.append(t) else groups.setdefault(...)`
shared by `group_by_cluster` and `_sub_cluster`. -/
def partitionLabeled (pairs : List (TweetEmbedded × Int)) :
    Groups × List TweetEmbedded :=
  pairs.foldl partitionStep ([], [])

/-- Grouping of `group_by_cluster` lines 126-130: key each tweet by its own
`cluster_id` field. -/
def partitionByCid (ts : List TweetEmbedded) : Groups × List TweetEmbedded :=
  partitionLabeled (ts.map (fun t => (t, t.cluster_id)))

/-- Number of distinct non-noise labels, `len(set(labels) - [minus one])`. -/
def nSub (labels : List Int) : Nat :=
  ((labels.filter (fun l => l ≠ -1)).dedup).length

/-- Model of `Clusterer._sub_cluster` (lines 65-115): re-cluster a
mega-cluster with the tighter-threshold HDBSCAN run abstracted as
`subLabeler`.  When more than one sub-cluster emerges, adopt the
sub-clusters and fold all residual noise into the first one; otherwise fall
back to engagement-descending chunks of `MAX_CLUSTER_SIZE`. -/
def Clusterer.sub_cluster (subLabeler : List TweetEmbedded → List Int)
    (ts : List TweetEmbedded) : List (List TweetEmbedded) :=
  let sub_labels := subLabeler ts
  if 1 < nSub sub_labels then
    let p := partitionLabeled (ts.zip sub_labels)
    match p.1.map (fun g => g.2), p.2 with
    | r0 :: rest, _ :: _ => (r0 ++ p.2) :: rest
    | result, _ => result
  else
    chunksOf MAX_CLUSTER_SIZE (sortDescBy (fun t => t.tweet.engagement) ts)

/-- Set `cluster_id := cid` on every member, the model of the mutation loop
`for t in members: t.cluster_id = next_id`. -/
def relabel (cid : Int) (ts : List TweetEmbedded) : List TweetEmbedded :=
  ts.map (fun t => { t with cluster_id := cid })

/-- Append one finalized group under the next fresh id:
`final_groups[next_id] = members; next_id += 1` together with the preceding
relabelling loop. -/
def pushGroup (acc : Groups × Int) (g : List TweetEmbedded) : Groups × Int :=
  (acc.1 ++ [(acc.2, relabel acc.2 g)], acc.2 + 1)

/-- Mega-cluster splitting step of `group_by_cluster` (lines 135-147): a
cluster larger than `MAX_CLUSTER_SIZE` is replaced by its sub-clusters,
anything else is pushed unchanged. -/
def splitStep (subLabeler : List TweetEmbedded → List Int)
    (acc : Groups × Int) (g : Int × List TweetEmbedded) : Groups × Int :=
  if MAX_CLUSTER_SIZE < g.2.length then
    (Clusterer.sub_cluster subLabeler g.2).foldl pushGroup acc
  else pushGroup acc g.2

/-- Model of `Clusterer.group_by_cluster` (lines 117-164): partition by
`cluster_id`, split mega-clusters (tighter HDBSCAN run abstracted as
`subLabeler`), then sort noise by engagement descending, keep the top
`NOISE_TOP_K`, and pack the kept noise into pseudo-clusters of
`NOISE_BATCH_SIZE`. -/
def Clusterer.group_by_cluster (subLabeler : List TweetEmbedded → List Int)
    (tweets : List TweetEmbedded) : Groups :=
  let p := partitionByCid tweets
  let fg := p.1.foldl (splitStep subLabeler) ([], 0)
  let kept := (sortDescBy (fun t => t.tweet.engagement) p.2).take NOISE_TOP_K
  ((chunksOf NOISE_BATCH_SIZE kept).foldl pushGroup fg).1

/-- Model of `Clusterer.cluster` (lines 26-63): fewer than 2 items bypass
HDBSCAN and each item gets its own index as label; otherwise the HDBSCAN
labels (abstracted as `labeler`) are written into `cluster_id`. -/
def Clusterer.cluster (labeler : List TweetEmbedded → List Int)
    (tweets : List TweetEmbedded) : List TweetEmbedded :=
  if tweets.length < 2 then
    tweets.enum.map (fun p => { p.2 with cluster_id := (p.1 : Int) })
  else
    (tweets.zip (labeler tweets)).map (fun p => { p.1 with cluster_id := p.2 })

/-- Members of all groups in order, `flatten` over the association list. -/
def groupMembers (g : Groups) : List TweetEmbedded :=
  g.flatMap (fun p => p.2)

/-- The items that survive `group_by_cluster` according to the source: all
non-noise items plus the `NOISE_TOP_K` highest-engagement noise items. -/
def keptItems (ts : List TweetEmbedded) : List TweetEmbedded :=
  ts.filter (fun t => t.cluster_id ≠ -1) ++
    (sortDescBy (fun t => t.tweet.engagement)
      (ts.filter (fun t => t.cluster_id = -1))).take NOISE_TOP_K

/-! ### Pre-clustering deduplication (`ApifyCollector._dedup`,
`src/collector/apify_client.py` lines 81-109) — the spec's
`deduplicate_recent`.  Three stages: pure-RT removal, exact-text dedup
keeping highest engagement, and near-duplicate suppression by
`(author, first-80-chars)` key within a 2-hour window. -/

/-- Whitespace set of Python `str.strip()` (ASCII part). -/
def isPySpace (c : Char) : Bool :=
  c = ' ' || c = Char.ofNat 9 || c = Char.ofNat 10 || c = Char.ofNat 13 ||
  c = Char.ofNat 11 || c = Char.ofNat 12

/-- Python `s.strip()`: remove leading and trailing whitespace (written
directly over the character list so that it evaluates inside the kernel). -/
def pyStrip (s : String) : String :=
  ⟨((s.data.dropWhile isPySpace).reverse.dropWhile isPySpace).reverse⟩

/-- Python `s[:n]`: the first `n` code points. -/
def pyTake (n : Nat) (s : String) : String :=
  ⟨s.data.take n⟩

/-- Python `s.startswith("RT @")`. -/
def startsWithRT (s : String) : Bool :=
  match s.data with
  | 'R' :: 'T' :: ' ' :: '@' :: _ => true
  | _ => false

namespace ApifyCollector

/-- Stage 1 (line 85): drop tweets whose stripped text starts with `RT @`. -/
def removeRTs (tweets : List TweetRaw) : List TweetRaw :=
  tweets.filter (fun t => ¬ startsWithRT (pyStrip t.text))

/-- One step of the stage-2 dict build (lines 88-92): under key
`t.text.strip()`, keep the entry with strictly higher engagement; a Python
`dict` update keeps the key's original insertion position. -/
def updateBest (acc : List (String × TweetRaw)) (t : TweetRaw) :
    List (String × TweetRaw) :=
  match acc with
  | [] => [(pyStrip t.text, t)]
  | (k, b) :: rest =>
      if k = pyStrip t.text then
        if b.engagement < t.engagement then (k, t) :: rest else (k, b) :: rest
      else (k, b) :: updateBest rest t

/-- Stage 2 (lines 87-93): exact-text dedup, `list(text_best.values())`. -/
def dedupExactText (tweets : List TweetRaw) : List TweetRaw :=
  (tweets.foldl updateBest []).map (fun p => p.2)

/-- The stage-3 key `f"(author_handle):(text[:80])"` (line 100). -/
def nearDupKey (t : TweetRaw) : String :=
  t.author_handle ++ ":" ++ pyTake 80 t.text

/-- Lookup in the `seen` dict (first matching key). -/
def lookupSeen (seen : List (String × Int)) (k : String) : Option Int :=
  match seen with
  | [] => none
  | (k', v) :: rest => if k' = k then some v else lookupSeen rest k

/-- Overwrite-or-append update of the `seen` dict. -/
def insertSeen (seen : List (String × Int)) (k : String) (v : Int) :
    List (String × Int) :=
  match seen with
  | [] => [(k, v)]
  | (k', v') :: rest =>
      if k' = k then (k', v) :: rest else (k', v') :: insertSeen rest k v

/-- The stage-3 discard test (lines 101-104): discard when the `seen` dict
holds a previous timestamp for this tweet's key and this tweet has a
timestamp less than 7200 seconds away from it. -/
def shouldDiscard (seen : List (String × Int)) (t : TweetRaw) : Bool :=
  match lookupSeen seen (nearDupKey t), t.created_at with
  | some p, some c => decide ((c - p).natAbs < 7200)
  | _, _ => false

/-- The stage-3 `seen` update (lines 105-106): a kept timestamped tweet
overwrites its key's entry; a tweet without timestamp leaves `seen` alone. -/
def updateSeen (seen : List (String × Int)) (t : TweetRaw) :
    List (String × Int) :=
  match t.created_at with
  | some c => insertSeen seen (nearDupKey t) c
  | none => seen

/-- Stage-3 loop (lines 97-107): walk the engagement-sorted list, discarding
near-duplicates against the `seen` dict and recording kept timestamped
tweets in it. -/
def suppressNearDups (seen : List (String × Int)) :
    List TweetRaw → List TweetRaw
  | [] => []
  | t :: ts =>
      if shouldDiscard seen t then suppressNearDups seen ts
      else t :: suppressNearDups (updateSeen seen t) ts

/-- Stage 3 (lines 95-107): sort by engagement descending, then suppress. -/
def dedupNearDups (tweets : List TweetRaw) : List TweetRaw :=
  suppressNearDups [] (sortDescBy TweetRaw.engagement tweets)

/-- Model of `ApifyCollector._dedup` (the spec's `deduplicate_recent`):
the three stages in order. -/
def dedup (tweets : List TweetRaw) : List TweetRaw :=
  dedupNearDups (dedupExactText (removeRTs tweets))

end ApifyCollector

/-! ### Historical deduplication (`src/processor/dedup.py`)

The `jieba.cut` tokenizer is an external library, abstracted as a
`tokenize : String → List String` parameter.  The emoji regex and the
stopword list are repository constants and are translated directly.  The
filesystem read by `_load_history` is abstracted as a `HistFS` record
holding the outcome of each access the Python code performs. -/

/-- Stopword set `_DEDUP_STOPWORDS` from `src/processor/dedup.py`. -/
def DEDUP_STOPWORDS : List String :=
  ["的", "了", "在", "是", "和", "与", "对", "于", "将", "为", "被",
   "AI", "人工智能", "大模型", "LLM", "发布", "宣布", "推出",
   "表示", "称", "说", "指出", "认为", "公司", "技术", "平台",
   "全球", "中国", "新", "正式", "重大", "最新"]

/-- Character ranges of the `_EMOJI_RE` regex character class. -/
def isEmojiChar (c : Char) : Bool :=
  (0x1F300 ≤ c.toNat && c.toNat ≤ 0x1FAFF) ||
  (0x2600 ≤ c.toNat && c.toNat ≤ 0x27BF) ||
  (0x2702 ≤ c.toNat && c.toNat ≤ 0x27B0) ||
  (0x231A ≤ c.toNat && c.toNat ≤ 0x2B55)

/-- Whitespace class of the regex `\s` (ASCII part). -/
def isSpaceChar (c : Char) : Bool :=
  c = ' ' || c = Char.ofNat 9 || c = Char.ofNat 10 || c = Char.ofNat 13 ||
  c = Char.ofNat 11 || c = Char.ofNat 12

/-- Global substitution of `_EMOJI_RE` (`[emoji]+\s*`) by the empty string:
each maximal emoji run together with the following whitespace run is
removed. -/
def stripEmojiAux : List Char → List Char
  | [] => []
  | c :: cs =>
      if isEmojiChar c then
        stripEmojiAux ((cs.dropWhile isEmojiChar).dropWhile isSpaceChar)
      else c :: stripEmojiAux cs
termination_by l => l.length
decreasing_by
  · simp only [List.length_cons]
    have h1 := (List.dropWhile_sublist (l := cs) (p := isEmojiChar)).length_le
    have h2 := (List.dropWhile_sublist (l := cs.dropWhile isEmojiChar)
      (p := isSpaceChar)).length_le
    omega
  · simp only [List.length_cons]
    omega

/-- String version of `_EMOJI_RE.sub("", text)`. -/
def stripEmoji (s : String) : String :=
  ⟨stripEmojiAux s.data⟩

/-- Historical deduplicator configuration, from
`HistoryDeduplicator.__init__`. -/
structure HistoryDeduplicator where
  lookback_days : Nat := 3
  threshold : Nat := 2

/-- Model of `HistoryDeduplicator._extract_keywords`: strip emoji, tokenize
(external `jieba.cut` abstracted as `tokenize`), keep tokens of length ≥ 2
outside the stopword list, as a set. -/
def extract_keywords (tokenize : String → List String) (text : String) :
    Finset String :=
  ((tokenize (stripEmoji text)).filter
    (fun w => 2 ≤ w.length && ¬ DEDUP_STOPWORDS.contains w)).toFinset

/-- Outcome of one history-file access in `_load_history`: the file may be
absent, fail to load (corrupt JSON — the `except` branch), or parse to a
list of JSON items of which those that are dicts with a `title` key
contribute a title. -/
inductive HistFile
  | missing
  | corrupt
  | parsed (items : List (Option String))

/-- Abstraction of the filesystem state `_load_history` observes: whether
`date_str` parses, whether the events directory exists, and the state of the
events file `days_ago` days back (for each `days_ago ≥ 1`). -/
structure HistFS where
  dateOk : Bool
  dirExists : Bool
  file : Nat → HistFile

/-- Model of `HistoryDeduplicator._load_history` (lines 78-106): collect
titles from the files 1..lookback_days days back; an unparseable date or a
missing directory yields no titles; a missing or corrupt file contributes
nothing. -/
def HistoryDeduplicator.load_history (d : HistoryDeduplicator)
    (fs : HistFS) : List String :=
  if fs.dateOk = false then []
  else if fs.dirExists = false then []
  else
    ((List.range d.lookback_days).map (fun i => i + 1)).flatMap
      (fun days_ago =>
        match fs.file days_ago with
        | .missing => []
        | .corrupt => []
        | .parsed items => items.filterMap id)

/-- One iteration of the `deduplicate` loop: a duplicate event's title goes
to `removed`, a unique event to `unique`. -/
def dedupEventStep (d : HistoryDeduplicator)
    (tokenize : String → List String) (hist_kw_list : List (Finset String))
    (acc : List EventCard × List String) (event : EventCard) :
    List EventCard × List String :=
  let event_kw := extract_keywords tokenize event.title
  if hist_kw_list.any (fun hkw => d.threshold ≤ (event_kw ∩ hkw).card)
  then (acc.1, acc.2 ++ [event.title])
  else (acc.1 ++ [event], acc.2)

/-- Core loop of `HistoryDeduplicator.deduplicate` (lines 52-76) given the
loaded historical titles: an event is a duplicate exactly when its title's
keyword set meets some single historical keyword set in at least
`threshold` elements; duplicates go to `removed`, survivors to `unique`. -/
def HistoryDeduplicator.deduplicateWith (d : HistoryDeduplicator)
    (tokenize : String → List String) (historical_titles : List String)
    (events : List EventCard) : List EventCard :=
  if historical_titles = [] then events
  else
    (events.foldl
      (dedupEventStep d tokenize (historical_titles.map (extract_keywords tokenize)))
      ([], [])).1

/-- Model of `HistoryDeduplicator.deduplicate` (lines 40-76). -/
def HistoryDeduplicator.deduplicate (d : HistoryDeduplicator)
    (tokenize : String → List String) (fs : HistFS)
    (events : List EventCard) : List EventCard :=
  d.deduplicateWith tokenize (d.load_history fs) events

/-! ### Ranker (`src/processor/ranker.py`)

The remote LLM call in `_llm_rank` is external I/O; its outcome is
abstracted as an `LLMOutcome` oracle: either the request/parse raised (any
`Exception`, caught in `rank`) or it produced a `ranked_ids` list. -/

/-- Outcome of the DashScope chat call plus JSON parsing in `_llm_rank`. -/
inductive LLMOutcome
  | failure
  | success (ranked_ids : List String)

/-- Ranker configuration: `self.top_n = 35` in `Ranker.__init__`. -/
structure Ranker where
  top_n : Nat := 35

/-- Fallback score from `Ranker._score_rank`:
`importance * (1 + min(cluster_size / 3, 2.0) * 0.2)`. -/
def eventScore (e : EventCard) : Rat :=
  e.importance * (1 + min ((e.cluster_size : Rat) / 3) 2 * (2 / 10))

/-- Model of `Ranker._score_rank` (lines 92-98). -/
def Ranker.score_rank (r : Ranker) (events : List EventCard) :
    List EventCard :=
  (sortDescBy eventScore events).take r.top_n

/-- Model of `Ranker._llm_rank` (lines 50-90) after a successful LLM call
returning `ranked_ids`: look each id up in the `event_id`-keyed dict (a
Python dict comprehension — on duplicate ids the last event wins), then
append the events the LLM omitted, sorted by importance descending, and
truncate to `top_n`. -/
def Ranker.llm_rank (r : Ranker) (ranked_ids : List String)
    (events : List EventCard) : List EventCard :=
  let ranked := ranked_ids.filterMap
    (fun eid => events.reverse.find? (fun e => e.event_id = eid))
  let remaining := sortDescBy (fun e => e.importance)
    (events.filter (fun e => ¬ ranked_ids.contains e.event_id))
  (ranked ++ remaining).take r.top_n

/-- Model of `Ranker.rank` (lines 39-48): at most `top_n` events short-cut
to a plain importance sort; otherwise the LLM path, falling back to the
score formula when the call fails. -/
def Ranker.rank (r : Ranker) (llm : LLMOutcome) (events : List EventCard) :
    List EventCard :=
  if events.length ≤ r.top_n then
    sortDescBy (fun e => e.importance) events
  else
    match llm with
    | .success ranked_ids => r.llm_rank ranked_ids events
    | .failure => r.score_rank events

/-! ### Witness and counterexample inputs

Concrete inputs used by the claim witnesses and counterexamples below. -/

/-- Invariant carried through every `pushGroup`: the accumulated keys are
`0, 1, ..., len-1` in order, the counter equals the length, and every
member's `cluster_id` equals its group's key. -/
def groupsInv (acc : Groups × Int) : Prop :=
  acc.1.map (fun p => p.1) = (List.range acc.1.length).map Int.ofNat ∧
  acc.2 = acc.1.length ∧
  ∀ p ∈ acc.1, ∀ t ∈ p.2, t.cluster_id = p.1

/-- Concrete input for the clusterer witnesses: a clustered pair plus one
noise item. -/
def wTs : List TweetEmbedded :=
  [⟨⟨"1", "a", "", "x", none, 1, 0, 0, 0⟩, [], 0⟩,
   ⟨⟨"2", "b", "", "y", none, 2, 0, 0, 0⟩, [], 0⟩,
   ⟨⟨"3", "c", "", "z", none, 3, 0, 0, 0⟩, [], -1⟩]

/-- Constant labelling oracle used by the clusterer witnesses. -/
def wSl : List TweetEmbedded → List Int := fun l => l.map (fun _ => 0)

/-- A mega-cluster of 32 identical-content items, all labelled into
cluster 0 by the coarse pass. -/
def ceTweets : List TweetEmbedded :=
  List.replicate 32 ⟨⟨"", "", "", "", none, 0, 0, 0, 0⟩, [], 0⟩

/-- Tighter-threshold labelling oracle that separates the mega-cluster into
a sub-cluster of 31 points and one of 1 point (a perfectly legal HDBSCAN
outcome). -/
def ceSl : List TweetEmbedded → List Int :=
  fun l => (List.range l.length).map (fun i => if i < 31 then (0 : Int) else 1)

/-- An 80-character text prefix shared by the counterexample tweets (so the
stage-3 keys coincide while the full texts differ). -/
def ceText : String :=
  "01234567890123456789012345678901234567890123456789012345678901234567890123456789"

/-- Engagement 10, timestamp 0 s. -/
def ceTweetA : TweetRaw := ⟨"", "auth", "", ceText ++ "a", some 0, 0, 10, 0, 0⟩

/-- Engagement 5, timestamp 10800 s (3 h after A). -/
def ceTweetB : TweetRaw := ⟨"", "auth", "", ceText ++ "b", some 10800, 0, 5, 0, 0⟩

/-- Engagement 1, timestamp 3600 s (1 h after A — within 2 hours of the
already-kept A). -/
def ceTweetC : TweetRaw := ⟨"", "auth", "", ceText ++ "c", some 3600, 0, 1, 0, 0⟩

/-- Two tweets witnessing a violation of C4 as stated: same key, both
timestamped, less than 7200 seconds apart. -/
def nearDupViolation (s t : TweetRaw) : Bool :=
  (ApifyCollector.nearDupKey s = ApifyCollector.nearDupKey t) &&
    (match s.created_at, t.created_at with
     | some cs, some ct => decide ((ct - cs).natAbs < 7200)
     | _, _ => false)


/-! ## Claim C10 — ranker cap -/

/-- C10: `Ranker.rank` (with the hard-coded `top_n = 35`) returns at most 35
events; when the input already has at most 35 events the output is the whole
input sorted by importance descending (a permutation of the input, sorted),
and on larger inputs both the LLM path and the score-formula fallback
truncate to the first 35. -/
theorem ranker_cap (llm : LLMOutcome) (events : List EventCard) :
    ((Ranker.mk 35).rank llm events).length ≤ 35 ∧
    (events.length ≤ 35 →
      (Ranker.mk 35).rank llm events =
        sortDescBy (fun e => e.importance) events ∧
      ((Ranker.mk 35).rank llm events).Perm events ∧
      ((Ranker.mk 35).rank llm events).Pairwise
        (fun a b => b.importance ≤ a.importance)) := by
  constructor
  · by_cases h : events.length ≤ 35
    · simp only [Ranker.rank, if_pos h]
      rw [sortDescBy_length]
      exact h
    · simp only [Ranker.rank, if_neg h]
      cases llm with
      | success ids =>
          simp only [Ranker.llm_rank]
          simp [List.length_take_le]
      | failure =>
          simp only [Ranker.score_rank]
          simp [List.length_take_le]
  · intro h
    refine ⟨by simp [Ranker.rank, if_pos h], ?_, ?_⟩
    · simp only [Ranker.rank, if_pos h]
      exact sortDescBy_perm _ events
    · simp only [Ranker.rank, if_pos h]
      exact sortDescBy_pairwise _ events

/-- Witness for C10 at a concrete two-event input. -/
theorem ranker_cap_witness :
    ((Ranker.mk 35).rank .failure
        [⟨"a", "t", 3, 1⟩, ⟨"b", "u", 7, 1⟩]).length ≤ 35 ∧
    ([(⟨"a", "t", 3, 1⟩ : EventCard), ⟨"b", "u", 7, 1⟩].length ≤ 35 →
      (Ranker.mk 35).rank .failure [⟨"a", "t", 3, 1⟩, ⟨"b", "u", 7, 1⟩] =
        sortDescBy (fun e => e.importance)
          [⟨"a", "t", 3, 1⟩, ⟨"b", "u", 7, 1⟩] ∧
      ((Ranker.mk 35).rank .failure
          [⟨"a", "t", 3, 1⟩, ⟨"b", "u", 7, 1⟩]).Perm
        [⟨"a", "t", 3, 1⟩, ⟨"b", "u", 7, 1⟩] ∧
      ((Ranker.mk 35).rank .failure
          [⟨"a", "t", 3, 1⟩, ⟨"b", "u", 7, 1⟩]).Pairwise
        (fun a b => b.importance ≤ a.importance)) :=
  ranker_cap .failure [⟨"a", "t", 3, 1⟩, ⟨"b", "u", 7, 1⟩]

/-! ## Claim C9 — historical dedup failure semantics -/

theorem flatMap_eq_nil_of_forall {α β : Type} (l : List α) (f : α → List β)
    (h : ∀ x ∈ l, f x = []) : l.flatMap f = [] := by
  induction l with
  | nil => rfl
  | cons x xs ih =>
      rw [List.flatMap_cons, h x (by simp), List.nil_append]
      exact ih (fun y hy => h y (by simp [hy]))

/-- C9: whenever no history can be loaded — the date string does not parse,
the events directory is missing, or every file in the lookback window is
missing or holds corrupt JSON — `deduplicate` returns the input event list
unchanged (the model is a total function, so no error is raised). -/
theorem historical_dedup_failure_semantics (d : HistoryDeduplicator)
    (tokenize : String → List String) (fs : HistFS)
    (events : List EventCard)
    (h : fs.dateOk = false ∨ fs.dirExists = false ∨
      ∀ day, 1 ≤ day → day ≤ d.lookback_days →
        (fs.file day = .missing ∨ fs.file day = .corrupt)) :
    d.deduplicate tokenize fs events = events := by
  have hload : d.load_history fs = [] := by
    rcases h with h | h | h
    · simp [HistoryDeduplicator.load_history, h]
    · rw [HistoryDeduplicator.load_history]
      rcases hd : fs.dateOk with _ | _
      · simp
      · simp [h]
    · rw [HistoryDeduplicator.load_history]
      rcases hd : fs.dateOk with _ | _
      · simp
      · rcases he : fs.dirExists with _ | _
        · simp
        · simp only [Bool.true_eq_false, if_false]
          apply flatMap_eq_nil_of_forall
          intro day hday
          rcases List.mem_map.1 hday with ⟨i, hi, rfl⟩
          have hi' := List.mem_range.1 hi
          rcases h (i + 1) (by omega) (by omega) with hf | hf <;> rw [hf]
  rw [HistoryDeduplicator.deduplicate, hload,
    HistoryDeduplicator.deduplicateWith, if_pos rfl]

/-- Witness for C9: a filesystem whose events directory is missing, with one
concrete event. -/
theorem historical_dedup_failure_semantics_witness :
    HistoryDeduplicator.deduplicate {} (fun s => [s])
      ⟨true, false, fun _ => .missing⟩ [⟨"e1", "t1", 5, 1⟩] =
      [⟨"e1", "t1", 5, 1⟩] :=
  historical_dedup_failure_semantics {} (fun s => [s])
    ⟨true, false, fun _ => .missing⟩ [⟨"e1", "t1", 5, 1⟩] (Or.inr (Or.inl rfl))

/-! ## Claim C5 — historical dedup rule -/

theorem foldl_dedupEventStep (d : HistoryDeduplicator)
    (tokenize : String → List String) (hist_kw_list : List (Finset String))
    (events : List EventCard) :
    ∀ u r, ((events.foldl (dedupEventStep d tokenize hist_kw_list) (u, r)).1) =
      u ++ events.filter
        (fun e => ¬ hist_kw_list.any
          (fun hkw => d.threshold ≤ ((extract_keywords tokenize e.title) ∩ hkw).card)) := by
  induction events with
  | nil => intro u r; simp
  | cons e es ih =>
      intro u r
      by_cases h : hist_kw_list.any
        (fun hkw => d.threshold ≤ ((extract_keywords tokenize e.title) ∩ hkw).card)
      · rw [List.foldl_cons]
        simp only [dedupEventStep, if_pos h]
        rw [ih, List.filter_cons, if_neg (by simp [h])]
      · rw [List.foldl_cons]
        simp only [dedupEventStep, if_neg h]
        rw [ih, List.filter_cons, if_pos (by simp [h])]
        simp

/-- C5: given a non-empty loaded history, `deduplicate` keeps exactly the
events whose title keyword set (as computed by `_extract_keywords`) meets no
single historical title's keyword set in `threshold` or more elements — the
output is a `filter` of the input, so survivors are unchanged and in their
original order; an event meeting some historical title in at least
`threshold` keywords (e.g. exactly 2 with the default threshold 2) is
dropped, and one meeting every historical title in fewer than `threshold`
keywords (e.g. only 1) is kept. -/
theorem historical_dedup_rule (d : HistoryDeduplicator)
    (tokenize : String → List String) (titles : List String)
    (events : List EventCard) (hne : titles ≠ []) :
    d.deduplicateWith tokenize titles events =
      events.filter (fun e => ¬ titles.any
        (fun t => d.threshold ≤
          ((extract_keywords tokenize e.title) ∩ (extract_keywords tokenize t)).card)) ∧
    (∀ e ∈ events,
      (∃ t ∈ titles, d.threshold ≤
          ((extract_keywords tokenize e.title) ∩ (extract_keywords tokenize t)).card) →
      e ∉ d.deduplicateWith tokenize titles events) ∧
    (∀ e ∈ events,
      (∀ t ∈ titles,
          ((extract_keywords tokenize e.title) ∩ (extract_keywords tokenize t)).card
            < d.threshold) →
      e ∈ d.deduplicateWith tokenize titles events) := by
  have heq : d.deduplicateWith tokenize titles events =
      events.filter (fun e => ¬ titles.any
        (fun t => d.threshold ≤
          ((extract_keywords tokenize e.title) ∩ (extract_keywords tokenize t)).card)) := by
    rw [HistoryDeduplicator.deduplicateWith, if_neg hne,
      foldl_dedupEventStep, List.nil_append]
    apply List.filter_congr
    intro e _
    simp [List.any_map, Function.comp]
  refine ⟨heq, ?_, ?_⟩
  · intro e _ ⟨t, ht, hcard⟩ hmem
    rw [heq] at hmem
    have := List.of_mem_filter hmem
    simp only [decide_eq_true_eq] at this
    exact this (List.any_eq_true.2 ⟨t, ht, by simpa using hcard⟩)
  · intro e he hall
    rw [heq]
    apply List.mem_filter.2
    refine ⟨he, ?_⟩
    simp only [decide_eq_true_eq]
    intro hany
    rcases List.any_eq_true.1 hany with ⟨t, ht, hcard⟩
    simp only [decide_eq_true_eq] at hcard
    exact absurd hcard (not_le.2 (hall t ht))

/-- Witness for C5, realizing the spec's concrete scenario D with a
whitespace tokenizer and default threshold 2: a candidate sharing two
substantive keywords with a historical title is dropped, one sharing a
single keyword is kept. -/
theorem historical_dedup_rule_witness :
    (HistoryDeduplicator.deduplicateWith {} (fun s => s.splitOn " ")
        ["openai launches gpt5 model"]
        [⟨"e1", "gpt5 model arrives", 5, 1⟩,
         ⟨"e2", "openai ships thing", 5, 1⟩] =
      [⟨"e1", "gpt5 model arrives", 5, 1⟩,
       ⟨"e2", "openai ships thing", 5, 1⟩].filter
        (fun e => ¬ ["openai launches gpt5 model"].any
          (fun t => (2 : Nat) ≤
            ((extract_keywords (fun s => s.splitOn " ") e.title) ∩
              (extract_keywords (fun s => s.splitOn " ") t)).card))) ∧
    (∀ e ∈ [(⟨"e1", "gpt5 model arrives", 5, 1⟩ : EventCard),
            ⟨"e2", "openai ships thing", 5, 1⟩],
      (∃ t ∈ ["openai launches gpt5 model"], (2 : Nat) ≤
          ((extract_keywords (fun s => s.splitOn " ") e.title) ∩
            (extract_keywords (fun s => s.splitOn " ") t)).card) →
      e ∉ HistoryDeduplicator.deduplicateWith {} (fun s => s.splitOn " ")
        ["openai launches gpt5 model"]
        [⟨"e1", "gpt5 model arrives", 5, 1⟩,
         ⟨"e2", "openai ships thing", 5, 1⟩]) ∧
    (∀ e ∈ [(⟨"e1", "gpt5 model arrives", 5, 1⟩ : EventCard),
            ⟨"e2", "openai ships thing", 5, 1⟩],
      (∀ t ∈ ["openai launches gpt5 model"],
          ((extract_keywords (fun s => s.splitOn " ") e.title) ∩
            (extract_keywords (fun s => s.splitOn " ") t)).card < 2) →
      e ∈ HistoryDeduplicator.deduplicateWith {} (fun s => s.splitOn " ")
        ["openai launches gpt5 model"]
        [⟨"e1", "gpt5 model arrives", 5, 1⟩,
         ⟨"e2", "openai ships thing", 5, 1⟩]) :=
  historical_dedup_rule {} (fun s => s.splitOn " ")
    ["openai launches gpt5 model"]
    [⟨"e1", "gpt5 model arrives", 5, 1⟩, ⟨"e2", "openai ships thing", 5, 1⟩]
    (by decide)

/-! ## Claim C8 — dense relabeling

Invariant carried through every `pushGroup`: the accumulated keys are
`0, 1, ..., len-1` in order, the counter equals the length, and every
member's `cluster_id` equals its group's key. -/


theorem pushGroup_inv {acc : Groups × Int} (h : groupsInv acc)
    (g : List TweetEmbedded) : groupsInv (pushGroup acc g) := by
  obtain ⟨hkeys, hcount, hmem⟩ := h
  refine ⟨?_, ?_, ?_⟩
  · simp only [pushGroup, List.map_append, List.length_append, List.map_cons,
      List.map_nil, List.length_cons, List.length_nil]
    rw [hkeys, hcount, List.range_succ]
    simp
  · simp [pushGroup, hcount]
  · intro p hp t ht
    simp only [pushGroup] at hp
    rcases List.mem_append.1 hp with hp | hp
    · exact hmem p hp t ht
    · rcases List.mem_singleton.1 hp with rfl
      simp only [relabel, List.mem_map] at ht
      rcases ht with ⟨u, _, rfl⟩
      rfl

theorem foldl_pushGroup_inv {acc : Groups × Int} (h : groupsInv acc) :
    ∀ l : List (List TweetEmbedded), groupsInv (l.foldl pushGroup acc) := by
  intro l
  induction l generalizing acc with
  | nil => exact h
  | cons g gs ih => exact ih (pushGroup_inv h g)

theorem foldl_splitStep_inv (sl : List TweetEmbedded → List Int)
    {acc : Groups × Int} (h : groupsInv acc) (gs : Groups) :
    groupsInv (gs.foldl (splitStep sl) acc) := by
  induction gs generalizing acc with
  | nil => exact h
  | cons g rest ih =>
      rw [List.foldl_cons]
      apply ih
      by_cases hm : MAX_CLUSTER_SIZE < g.2.length
      · simp only [splitStep, if_pos hm]
        exact foldl_pushGroup_inv h _
      · simp only [splitStep, if_neg hm]
        exact pushGroup_inv h g.2

/-- C8: the mapping returned by `group_by_cluster` has exactly the keys
`0, 1, ..., n-1` in order (a dense sequence of non-negative integers with no
gaps), and every member's `cluster_id` field equals the key of its group. -/
theorem relabeling_dense (sl : List TweetEmbedded → List Int)
    (ts : List TweetEmbedded) :
    (Clusterer.group_by_cluster sl ts).map (fun p => p.1) =
      (List.range (Clusterer.group_by_cluster sl ts).length).map Int.ofNat ∧
    ∀ p ∈ Clusterer.group_by_cluster sl ts, ∀ t ∈ p.2,
      t.cluster_id = p.1 := by
  have hbase : groupsInv (([], 0) : Groups × Int) := by
    refine ⟨rfl, rfl, ?_⟩
    intro p hp
    simp at hp
  have h1 := foldl_splitStep_inv sl hbase (partitionByCid ts).1
  have h2 := foldl_pushGroup_inv h1
    (chunksOf NOISE_BATCH_SIZE
      ((sortDescBy (fun t => t.tweet.engagement) (partitionByCid ts).2).take
        NOISE_TOP_K))
  exact ⟨h2.1, h2.2.2⟩

/-! ## Claim C7 — degenerate inputs -/

/-- C7: `cluster` on fewer than 2 items bypasses density clustering and
labels each item with its own index; composed with `group_by_cluster`, an
empty input yields an empty mapping and a single item yields exactly one
group of size 1 (holding that item with `cluster_id = 0`). -/
theorem degenerate_input_edge_case (labeler sl : List TweetEmbedded → List Int)
    (ts : List TweetEmbedded) (h2 : ts.length < 2) :
    (Clusterer.cluster labeler ts).map (fun t => t.cluster_id) =
      (List.range ts.length).map Int.ofNat ∧
    Clusterer.group_by_cluster sl (Clusterer.cluster labeler []) = [] ∧
    ∀ t : TweetEmbedded,
      Clusterer.group_by_cluster sl (Clusterer.cluster labeler [t]) =
        [(0, [{ t with cluster_id := 0 }])] := by
  refine ⟨?_, ?_, ?_⟩
  · rw [Clusterer.cluster, if_pos h2]
    rw [List.map_map]
    have : ts.enum.map ((fun t => t.cluster_id) ∘
        (fun p : Nat × TweetEmbedded => { p.2 with cluster_id := (p.1 : Int) })) =
        ts.enum.map (fun p => Int.ofNat p.1) := by
      apply List.map_congr_left
      intro p _
      rfl
    rw [this,
      show (fun p : Nat × TweetEmbedded => Int.ofNat p.1) =
        Int.ofNat ∘ Prod.fst from rfl,
      ← List.map_map, List.enum_map_fst]
  · simp [Clusterer.cluster, Clusterer.group_by_cluster, partitionByCid,
      partitionLabeled, sortDescBy, chunksOf, chunksOfAux]
  · intro t
    simp [Clusterer.cluster, Clusterer.group_by_cluster, partitionByCid,
      partitionLabeled, partitionStep, addToGroups, splitStep, pushGroup,
      relabel, sortDescBy, chunksOf, MAX_CLUSTER_SIZE, NOISE_TOP_K,
      NOISE_BATCH_SIZE, Clusterer.sub_cluster, chunksOfAux]

/-- Witness for C7 at the empty list (length 0 < 2) with trivial oracles. -/
theorem degenerate_input_edge_case_witness :
    ((Clusterer.cluster (fun _ => []) []).map (fun t => t.cluster_id) =
      (List.range ([] : List TweetEmbedded).length).map Int.ofNat) ∧
    Clusterer.group_by_cluster (fun _ => [])
      (Clusterer.cluster (fun _ => []) []) = [] ∧
    ∀ t : TweetEmbedded,
      Clusterer.group_by_cluster (fun _ => [])
        (Clusterer.cluster (fun _ => []) [t]) =
        [(0, [{ t with cluster_id := 0 }])] :=
  degenerate_input_edge_case (fun _ => []) (fun _ => []) [] (by decide)

/-! ## Partition infrastructure for the clusterer claims -/

theorem groupMembers_nil : groupMembers [] = [] := rfl

theorem groupMembers_cons (p : Int × List TweetEmbedded) (g : Groups) :
    groupMembers (p :: g) = p.2 ++ groupMembers g := rfl

theorem groupMembers_append (g₁ g₂ : Groups) :
    groupMembers (g₁ ++ g₂) = groupMembers g₁ ++ groupMembers g₂ := by
  simp [groupMembers]

theorem groupMembers_addToGroups (g : Groups) (cid : Int) (t : TweetEmbedded) :
    (groupMembers (addToGroups g cid t)).Perm (groupMembers g ++ [t]) := by
  induction g with
  | nil => simp [addToGroups, groupMembers]
  | cons q rest ih =>
      obtain ⟨k, ms⟩ := q
      by_cases h : k = cid
      · simp only [addToGroups, if_pos h, groupMembers_cons]
        rw [List.append_assoc]
        exact (List.Perm.append_left ms
          (List.perm_append_comm.trans (List.Perm.refl _))).trans
          (by rw [← List.append_assoc])
      · simp only [addToGroups, if_neg h, groupMembers_cons]
        rw [List.append_assoc]
        exact List.Perm.append_left ms ih

theorem foldl_partitionStep_groups (pairs : List (TweetEmbedded × Int)) :
    ∀ acc : Groups × List TweetEmbedded,
      (groupMembers ((pairs.foldl partitionStep acc).1)).Perm
        (groupMembers acc.1 ++
          (pairs.filter (fun p => p.2 ≠ -1)).map (fun p => p.1)) := by
  induction pairs with
  | nil => intro acc; simp
  | cons p ps ih =>
      intro acc
      rw [List.foldl_cons]
      by_cases h : p.2 = -1
      · simp only [partitionStep, if_pos h]
        refine (ih _).trans ?_
        rw [List.filter_cons, if_neg (by simp [h])]
      · simp only [partitionStep, if_neg h]
        refine (ih _).trans ?_
        rw [List.filter_cons, if_pos (by simp [h])]
        simp only [List.map_cons]
        refine (List.Perm.append_right _ (groupMembers_addToGroups _ _ _)).trans ?_
        rw [List.append_assoc]
        exact List.Perm.refl _

theorem foldl_partitionStep_noise (pairs : List (TweetEmbedded × Int)) :
    ∀ acc : Groups × List TweetEmbedded,
      ((pairs.foldl partitionStep acc).2) =
        acc.2 ++ (pairs.filter (fun p => p.2 = -1)).map (fun p => p.1) := by
  induction pairs with
  | nil => intro acc; simp
  | cons p ps ih =>
      intro acc
      rw [List.foldl_cons]
      by_cases h : p.2 = -1
      · simp only [partitionStep, if_pos h]
        rw [ih, List.filter_cons, if_pos (by simp [h])]
        simp
      · simp only [partitionStep, if_neg h]
        rw [ih, List.filter_cons, if_neg (by simp [h])]

theorem partitionLabeled_groups_perm (pairs : List (TweetEmbedded × Int)) :
    (groupMembers (partitionLabeled pairs).1).Perm
      ((pairs.filter (fun p => p.2 ≠ -1)).map (fun p => p.1)) := by
  have := foldl_partitionStep_groups pairs ([], [])
  simpa [partitionLabeled] using this

theorem partitionLabeled_noise (pairs : List (TweetEmbedded × Int)) :
    (partitionLabeled pairs).2 =
      (pairs.filter (fun p => p.2 = -1)).map (fun p => p.1) := by
  have := foldl_partitionStep_noise pairs ([], [])
  simpa [partitionLabeled] using this

theorem partitionByCid_noise (ts : List TweetEmbedded) :
    (partitionByCid ts).2 = ts.filter (fun t => t.cluster_id = -1) := by
  rw [partitionByCid, partitionLabeled_noise, List.filter_map, List.map_map]
  simp only [Function.comp_def]
  simp

theorem partitionByCid_groups_perm (ts : List TweetEmbedded) :
    (groupMembers (partitionByCid ts).1).Perm
      (ts.filter (fun t => t.cluster_id ≠ -1)) := by
  rw [partitionByCid]
  refine (partitionLabeled_groups_perm _).trans ?_
  rw [List.filter_map, List.map_map]
  simp only [Function.comp_def]
  simp

theorem filter_cid_append_perm (ts : List TweetEmbedded) :
    (ts.filter (fun t => t.cluster_id ≠ -1) ++
      ts.filter (fun t => t.cluster_id = -1)).Perm ts := by
  have h := List.filter_append_perm (fun t => t.cluster_id ≠ -1) ts
  refine List.Perm.trans ?_ h
  apply List.Perm.append_left
  rw [List.filter_congr]
  intro x _
  simp

theorem exists_real_label_of_nSub_pos (labels : List Int)
    (h : 0 < nSub labels) : ∃ lab ∈ labels, lab ≠ -1 := by
  rw [nSub] at h
  rcases List.exists_mem_of_length_pos h with ⟨lab, hlab⟩
  have hlab' := (List.mem_dedup).1 hlab
  rcases List.mem_filter.1 hlab' with ⟨hmem, hne⟩
  exact ⟨lab, hmem, by simpa using hne⟩

/-- Every item of a mega-cluster survives `_sub_cluster`: the returned
sub-groups (with folded-in noise, or fallback chunks) are a permutation of
the input members. -/
theorem sub_cluster_flatten_perm (sl : List TweetEmbedded → List Int)
    (ts : List TweetEmbedded) (hl : (sl ts).length = ts.length) :
    ((Clusterer.sub_cluster sl ts).flatten).Perm ts := by
  rw [Clusterer.sub_cluster]
  by_cases h : 1 < nSub (sl ts)
  · simp only [if_pos h]
    have hfst : (ts.zip (sl ts)).map (fun p => p.1) = ts := by
      have := List.map_fst_zip ts (sl ts) (le_of_eq hl.symm)
      simpa using this
    have hsnd : (ts.zip (sl ts)).map (fun p => p.2) = sl ts := by
      have := List.map_snd_zip ts (sl ts) (le_of_eq hl)
      simpa using this
    have hgroups := partitionLabeled_groups_perm (ts.zip (sl ts))
    have hnoise := partitionLabeled_noise (ts.zip (sl ts))
    have hflat : ((partitionLabeled (ts.zip (sl ts))).1.map
        (fun g => g.2)).flatten = groupMembers (partitionLabeled (ts.zip (sl ts))).1 := by
      rw [groupMembers, List.flatMap]
    -- the filtered split of the zipped pairs reassembles to `ts`
    have hsplit : (((ts.zip (sl ts)).filter (fun p => p.2 ≠ -1)).map (fun p => p.1) ++
        ((ts.zip (sl ts)).filter (fun p => p.2 = -1)).map (fun p => p.1)).Perm ts := by
      rw [← List.map_append]
      have hp : (((ts.zip (sl ts)).filter (fun p => p.2 ≠ -1)) ++
          ((ts.zip (sl ts)).filter (fun p => p.2 = -1))).Perm (ts.zip (sl ts)) := by
        have h1 := List.filter_append_perm
          (fun p : TweetEmbedded × Int => p.2 ≠ -1) (ts.zip (sl ts))
        refine List.Perm.trans ?_ h1
        apply List.Perm.append_left
        rw [List.filter_congr]
        intro x _
        simp
      exact (hp.map (fun p => p.1)).trans (by rw [hfst])
    cases hG : (partitionLabeled (ts.zip (sl ts))).1.map (fun g => g.2) with
    | nil =>
        exfalso
        rcases exists_real_label_of_nSub_pos (sl ts) (by omega) with ⟨lab, hmem, hne⟩
        have : ∃ p ∈ ts.zip (sl ts), p.2 = lab := by
          have : lab ∈ (ts.zip (sl ts)).map (fun p => p.2) := by
            rw [hsnd]; exact hmem
          rcases List.mem_map.1 this with ⟨p, hp, hp2⟩
          exact ⟨p, hp, hp2⟩
        rcases this with ⟨p, hp, hp2⟩
        have hpin : p ∈ (ts.zip (sl ts)).filter (fun q => q.2 ≠ -1) :=
          List.mem_filter.2 ⟨hp, by simp [hp2, hne]⟩
        have hGnil : (partitionLabeled (ts.zip (sl ts))).1 = [] :=
          List.map_eq_nil_iff.1 hG
        have : ((ts.zip (sl ts)).filter (fun q => q.2 ≠ -1)).map
            (fun q => q.1) = [] := by
          have := hgroups.symm
          rw [hGnil] at this
          exact (List.Perm.nil_eq (by simpa [groupMembers] using this)).symm
        have : p.1 ∈ (([] : List TweetEmbedded)) := by
          rw [← this]
          exact List.mem_map_of_mem _ hpin
        simp at this
    | cons r0 rest =>
        cases hN : (partitionLabeled (ts.zip (sl ts))).2 with
        | nil =>
            simp only
            have hflat' : (r0 :: rest).flatten =
                groupMembers (partitionLabeled (ts.zip (sl ts))).1 := by
              rw [← hG, hflat]
            rw [hflat']
            refine hgroups.trans ?_
            have hz : ((ts.zip (sl ts)).filter (fun p => p.2 = -1)).map
                (fun p => p.1) = [] := by rw [← hnoise, hN]
            refine List.Perm.trans ?_ hsplit
            rw [hz, List.append_nil]
        | cons n0 nrest =>
            simp only
            have hflat' : ((r0 ++ (n0 :: nrest)) :: rest).flatten =
                (r0 ++ (n0 :: nrest)) ++ rest.flatten := by simp
            rw [hflat']
            have hre : ((r0 ++ (n0 :: nrest)) ++ rest.flatten).Perm
                ((r0 ++ rest.flatten) ++ (n0 :: nrest)) := by
              rw [List.append_assoc, List.append_assoc]
              exact List.Perm.append_left r0 List.perm_append_comm
            refine hre.trans ?_
            have hmem' : r0 ++ rest.flatten =
                groupMembers (partitionLabeled (ts.zip (sl ts))).1 := by
              rw [← hflat, hG]
              simp
            rw [hmem', ← hN, hnoise]
            exact (List.Perm.append hgroups (List.Perm.refl _)).trans hsplit
  · simp only [if_neg h]
    rw [chunksOf_flatten]
    exact sortDescBy_perm _ ts

theorem relabel_content (c : Int) (g : List TweetEmbedded) :
    (relabel c g).map TweetEmbedded.content = g.map TweetEmbedded.content := by
  simp [relabel, List.map_map, TweetEmbedded.content, Function.comp_def]

theorem relabel_length (c : Int) (g : List TweetEmbedded) :
    (relabel c g).length = g.length := by
  simp [relabel]

theorem pushGroup_members (acc : Groups × Int) (g : List TweetEmbedded) :
    groupMembers (pushGroup acc g).1 = groupMembers acc.1 ++ relabel acc.2 g := by
  simp [pushGroup, groupMembers_append, groupMembers]

theorem foldl_pushGroup_members (l : List (List TweetEmbedded)) :
    ∀ acc : Groups × Int,
      (groupMembers ((l.foldl pushGroup acc).1)).map TweetEmbedded.content =
        (groupMembers acc.1).map TweetEmbedded.content ++
          l.flatten.map TweetEmbedded.content := by
  induction l with
  | nil => intro acc; simp
  | cons g gs ih =>
      intro acc
      rw [List.foldl_cons, ih, pushGroup_members, List.map_append,
        relabel_content]
      simp [List.append_assoc]

theorem foldl_splitStep_members (sl : List TweetEmbedded → List Int)
    (hl : ∀ l, (sl l).length = l.length) (gs : Groups) :
    ∀ acc : Groups × Int,
      ((groupMembers ((gs.foldl (splitStep sl) acc).1)).map
        TweetEmbedded.content).Perm
      ((groupMembers acc.1).map TweetEmbedded.content ++
        (groupMembers gs).map TweetEmbedded.content) := by
  induction gs with
  | nil => intro acc; simp [groupMembers]
  | cons g rest ih =>
      intro acc
      rw [List.foldl_cons]
      refine (ih _).trans ?_
      rw [groupMembers_cons, List.map_append, ← List.append_assoc]
      apply List.Perm.append_right
      by_cases hm : MAX_CLUSTER_SIZE < g.2.length
      · simp only [splitStep, if_pos hm]
        rw [foldl_pushGroup_members]
        apply List.Perm.append_left
        exact (sub_cluster_flatten_perm sl g.2 (hl g.2)).map _
      · simp only [splitStep, if_neg hm]
        rw [pushGroup_members, List.map_append, relabel_content]

/-- Shared permutation lemma: the members of all groups returned by
`group_by_cluster`, with `cluster_id` erased, are a permutation of the
non-noise input items plus the kept top-`NOISE_TOP_K` noise items. -/
theorem group_by_members_perm (sl : List TweetEmbedded → List Int)
    (ts : List TweetEmbedded) (hl : ∀ l, (sl l).length = l.length) :
    ((groupMembers (Clusterer.group_by_cluster sl ts)).map
      TweetEmbedded.content).Perm
    ((keptItems ts).map TweetEmbedded.content) := by
  rw [Clusterer.group_by_cluster]
  rw [foldl_pushGroup_members, chunksOf_flatten]
  rw [keptItems, List.map_append]
  apply List.Perm.append
  · refine ((foldl_splitStep_members sl hl (partitionByCid ts).1) _).trans ?_
    simp only [groupMembers_nil, List.map_nil, List.nil_append]
    exact (partitionByCid_groups_perm ts).map _
  · rw [partitionByCid_noise]

theorem nodup_flatMap_pairwise {α β : Type} (l : List α) (f : α → List β)
    (h : (l.flatMap f).Nodup) : l.Pairwise (fun a b => ∀ x ∈ f a, x ∉ f b) := by
  induction l with
  | nil => exact List.Pairwise.nil
  | cons a as ih =>
      rw [List.flatMap_cons] at h
      rcases List.nodup_append.1 h with ⟨_, hrest, hdisj⟩
      refine List.pairwise_cons.2 ⟨?_, ih hrest⟩
      intro b hb x hxa hxb
      exact hdisj hxa (List.mem_flatMap.2 ⟨b, hb, hxb⟩)

/-- The kept items' contents are duplicate-free whenever the input contents
are. -/
theorem keptItems_content_nodup (ts : List TweetEmbedded)
    (h : (ts.map TweetEmbedded.content).Nodup) :
    ((keptItems ts).map TweetEmbedded.content).Nodup := by
  have hperm : ((ts.filter (fun t => t.cluster_id ≠ -1) ++
      sortDescBy (fun t => t.tweet.engagement)
        (ts.filter (fun t => t.cluster_id = -1))).map
        TweetEmbedded.content).Perm (ts.map TweetEmbedded.content) := by
    apply List.Perm.map
    refine List.Perm.trans ?_ (filter_cid_append_perm ts)
    exact List.Perm.append_left _ (sortDescBy_perm _ _)
  have hnodup' : ((ts.filter (fun t => t.cluster_id ≠ -1) ++
      sortDescBy (fun t => t.tweet.engagement)
        (ts.filter (fun t => t.cluster_id = -1))).map
        TweetEmbedded.content).Nodup := hperm.nodup_iff.2 h
  have hsub : List.Sublist (keptItems ts)
      (ts.filter (fun t => t.cluster_id ≠ -1) ++
        sortDescBy (fun t => t.tweet.engagement)
          (ts.filter (fun t => t.cluster_id = -1))) := by
    rw [keptItems]
    exact (List.take_sublist _ _).append_left _
  exact hnodup'.sublist (hsub.map _)

/-! ## Claim C1 — partition invariant -/

/-- C1: the groups returned by `group_by_cluster` retain, as a permutation
(so no item is lost and none is duplicated), exactly the non-noise input
items plus the kept top-`NOISE_TOP_K` noise items — the full input minus the
discarded noise; and when the input items are pairwise distinct (up to
`cluster_id`), distinct groups are pairwise disjoint.  The hypothesis states
the `hdbscan` output contract: one label per input point. -/
theorem partition_invariant (sl : List TweetEmbedded → List Int)
    (ts : List TweetEmbedded) (hl : ∀ l, (sl l).length = l.length) :
    ((groupMembers (Clusterer.group_by_cluster sl ts)).map
      TweetEmbedded.content).Perm ((keptItems ts).map TweetEmbedded.content) ∧
    ((ts.map TweetEmbedded.content).Nodup →
      (Clusterer.group_by_cluster sl ts).Pairwise
        (fun p q => ∀ t ∈ p.2, ∀ u ∈ q.2,
          t.content ≠ u.content)) := by
  refine ⟨group_by_members_perm sl ts hl, ?_⟩
  intro hnd
  have hmembers : ((Clusterer.group_by_cluster sl ts).flatMap
      (fun p => p.2.map TweetEmbedded.content)).Nodup := by
    have heq : (Clusterer.group_by_cluster sl ts).flatMap
        (fun p => p.2.map TweetEmbedded.content) =
        (groupMembers (Clusterer.group_by_cluster sl ts)).map
          TweetEmbedded.content := by
      rw [groupMembers]
      induction Clusterer.group_by_cluster sl ts with
      | nil => rfl
      | cons p g ih => simp [ih]
    rw [heq]
    exact ((group_by_members_perm sl ts hl).nodup_iff).2
      (keptItems_content_nodup ts hnd)
  have := nodup_flatMap_pairwise _ _ hmembers
  refine this.imp ?_
  intro p q hpq t ht u hu hc
  exact hpq (t.content) (List.mem_map_of_mem _ ht)
    (hc ▸ List.mem_map_of_mem _ hu)




/-- Witness for C1: one real cluster pair and one noise item, with a
constant labelling oracle. -/
theorem partition_invariant_witness :
    (((groupMembers (Clusterer.group_by_cluster wSl wTs)).map
      TweetEmbedded.content).Perm
      ((keptItems wTs).map TweetEmbedded.content)) ∧
    ((wTs.map TweetEmbedded.content).Nodup →
      (Clusterer.group_by_cluster wSl wTs).Pairwise
        (fun p q => ∀ t ∈ p.2, ∀ u ∈ q.2, t.content ≠ u.content)) :=
  partition_invariant wSl wTs (fun l => by simp [wSl])

/-! ## Claim C3 — noise triage -/

theorem foldl_pushGroup_shift (l : List (List TweetEmbedded)) :
    ∀ (G : Groups) (n : Int),
      ((l.foldl pushGroup (G, n)).1) = G ++ ((l.foldl pushGroup ([], n)).1) := by
  induction l with
  | nil => intro G n; simp
  | cons g gs ih =>
      intro G n
      rw [List.foldl_cons, List.foldl_cons]
      show (gs.foldl pushGroup (G ++ [(n, relabel n g)], n + 1)).1 = _
      rw [ih (G ++ [(n, relabel n g)]) (n + 1)]
      show _ = G ++ (gs.foldl pushGroup ([(n, relabel n g)], n + 1)).1
      rw [ih [(n, relabel n g)] (n + 1), List.append_assoc]

theorem foldl_pushGroup_fresh (l : List (List TweetEmbedded)) :
    ∀ n : Int,
      ((l.foldl pushGroup ([], n)).1).map (fun p => p.2.map TweetEmbedded.content) =
        l.map (fun b => b.map TweetEmbedded.content) := by
  induction l with
  | nil => intro n; simp
  | cons g gs ih =>
      intro n
      rw [List.foldl_cons]
      show ((gs.foldl pushGroup ([(n, relabel n g)], n + 1)).1).map _ = _
      rw [foldl_pushGroup_shift gs [(n, relabel n g)] (n + 1)]
      rw [List.map_append, ih (n + 1)]
      simp [relabel_content]

theorem foldl_pushGroup_fresh_length (l : List (List TweetEmbedded)) (n : Int) :
    ((l.foldl pushGroup ([], n)).1).length = l.length := by
  have := congrArg List.length (foldl_pushGroup_fresh l n)
  simpa using this

/-- C3: in `group_by_cluster` the noise items are sorted by engagement
descending (a stable permutation, pairwise non-increasing); only the top
`NOISE_TOP_K` are kept, the discarded count being
`max 0 (noise_total - NOISE_TOP_K)`; the kept noise is split, in that
order, into consecutive batches of `NOISE_BATCH_SIZE` forming the final
groups of the output; and (for pairwise-distinct inputs) no discarded noise
item occurs in any output group. -/
theorem noise_triage (sl : List TweetEmbedded → List Int)
    (ts : List TweetEmbedded) (hl : ∀ l, (sl l).length = l.length) :
    (sortDescBy (fun t => t.tweet.engagement)
        (ts.filter (fun t => t.cluster_id = -1))).Pairwise
      (fun a b => b.tweet.engagement ≤ a.tweet.engagement) ∧
    (sortDescBy (fun t => t.tweet.engagement)
        (ts.filter (fun t => t.cluster_id = -1))).Perm
      (ts.filter (fun t => t.cluster_id = -1)) ∧
    (((ts.filter (fun t => t.cluster_id = -1)).length : Int) -
        ((sortDescBy (fun t => t.tweet.engagement)
          (ts.filter (fun t => t.cluster_id = -1))).take NOISE_TOP_K).length =
      max 0 (((ts.filter (fun t => t.cluster_id = -1)).length : Int) -
        NOISE_TOP_K)) ∧
    (((Clusterer.group_by_cluster sl ts).map
        (fun p => p.2.map TweetEmbedded.content)).drop
          ((Clusterer.group_by_cluster sl ts).length -
            (chunksOf NOISE_BATCH_SIZE
              ((sortDescBy (fun t => t.tweet.engagement)
                (ts.filter (fun t => t.cluster_id = -1))).take NOISE_TOP_K)).length) =
      (chunksOf NOISE_BATCH_SIZE
        ((sortDescBy (fun t => t.tweet.engagement)
          (ts.filter (fun t => t.cluster_id = -1))).take NOISE_TOP_K)).map
        (fun b => b.map TweetEmbedded.content)) ∧
    ((ts.map TweetEmbedded.content).Nodup →
      ∀ t ∈ (sortDescBy (fun t => t.tweet.engagement)
          (ts.filter (fun t => t.cluster_id = -1))).drop NOISE_TOP_K,
        ∀ p ∈ Clusterer.group_by_cluster sl ts, ∀ u ∈ p.2,
          u.content ≠ t.content) := by
  refine ⟨sortDescBy_pairwise _ _, sortDescBy_perm _ _, ?_, ?_, ?_⟩
  · rw [List.length_take, sortDescBy_length]
    omega
  · have hunfold : Clusterer.group_by_cluster sl ts =
        ((chunksOf NOISE_BATCH_SIZE
          ((sortDescBy (fun t => t.tweet.engagement)
            (ts.filter (fun t => t.cluster_id = -1))).take NOISE_TOP_K)).foldl
          pushGroup
          ((partitionByCid ts).1.foldl (splitStep sl) ([], 0))).1 := by
      rw [Clusterer.group_by_cluster, partitionByCid_noise]
    rw [hunfold]
    obtain ⟨G, n, hGn⟩ : ∃ G n,
        ((partitionByCid ts).1.foldl (splitStep sl) ([], 0)) = (G, n) :=
      ⟨_, _, rfl⟩
    rw [hGn, foldl_pushGroup_shift _ G n]
    rw [List.map_append, List.length_append, foldl_pushGroup_fresh_length]
    rw [Nat.add_sub_cancel]
    have hlen : G.length =
        (G.map (fun p => p.2.map TweetEmbedded.content)).length := by simp
    rw [hlen, List.drop_left, foldl_pushGroup_fresh]
  · intro hnd t htdrop p hp u hu hc
    -- `u` is in some output group, so its content is among the kept items
    have humem : u.content ∈ (keptItems ts).map TweetEmbedded.content := by
      refine (group_by_members_perm sl ts hl).mem_iff.1 ?_
      exact List.mem_map_of_mem _ (List.mem_flatMap.2 ⟨p, hp, hu⟩)
    rw [hc] at humem
    -- but a discarded item's content is not among the kept items
    set ns := sortDescBy (fun t => t.tweet.engagement)
      (ts.filter (fun t => t.cluster_id = -1)) with hns
    have hnodupA : ((ts.filter (fun t => t.cluster_id ≠ -1) ++ ns).map
        TweetEmbedded.content).Nodup := by
      refine (List.Perm.nodup_iff (List.Perm.map _ ?_)).2 hnd
      refine List.Perm.trans ?_ (filter_cid_append_perm ts)
      exact List.Perm.append_left _ (sortDescBy_perm _ _)
    rw [List.map_append, List.nodup_append] at hnodupA
    obtain ⟨hndA, hndns, hdisj⟩ := hnodupA
    have htmem : t.content ∈ (ns.drop NOISE_TOP_K).map TweetEmbedded.content :=
      List.mem_map_of_mem _ htdrop
    rcases List.mem_append.1 (by
        rw [keptItems, List.map_append] at humem; exact humem) with hA | hK
    · -- t.content in the non-noise part: contradicts A/noise disjointness
      have : t.content ∈ ns.map TweetEmbedded.content := by
        have : List.Sublist (ns.drop NOISE_TOP_K) ns := List.drop_sublist _ _
        exact (this.map _).mem htmem
      exact hdisj hA this
    · -- t.content among the kept prefix: contradicts Nodup of ns contents
      have hnsplit : ns.map TweetEmbedded.content =
          (ns.take NOISE_TOP_K).map TweetEmbedded.content ++
          (ns.drop NOISE_TOP_K).map TweetEmbedded.content := by
        rw [← List.map_append, List.take_append_drop]
      rw [hnsplit, List.nodup_append] at hndns
      exact hndns.2.2 hK htmem

/-- Witness for C3: the clusterer witness input (a clustered pair and one
noise item) under the constant labelling oracle. -/
theorem noise_triage_witness :
    ((sortDescBy (fun t => t.tweet.engagement)
        (wTs.filter (fun t => t.cluster_id = -1))).Pairwise
      (fun a b => b.tweet.engagement ≤ a.tweet.engagement)) ∧
    ((sortDescBy (fun t => t.tweet.engagement)
        (wTs.filter (fun t => t.cluster_id = -1))).Perm
      (wTs.filter (fun t => t.cluster_id = -1))) ∧
    (((wTs.filter (fun t => t.cluster_id = -1)).length : Int) -
        ((sortDescBy (fun t => t.tweet.engagement)
          (wTs.filter (fun t => t.cluster_id = -1))).take NOISE_TOP_K).length =
      max 0 (((wTs.filter (fun t => t.cluster_id = -1)).length : Int) -
        NOISE_TOP_K)) ∧
    (((Clusterer.group_by_cluster wSl wTs).map
        (fun p => p.2.map TweetEmbedded.content)).drop
          ((Clusterer.group_by_cluster wSl wTs).length -
            (chunksOf NOISE_BATCH_SIZE
              ((sortDescBy (fun t => t.tweet.engagement)
                (wTs.filter (fun t => t.cluster_id = -1))).take
                  NOISE_TOP_K)).length) =
      (chunksOf NOISE_BATCH_SIZE
        ((sortDescBy (fun t => t.tweet.engagement)
          (wTs.filter (fun t => t.cluster_id = -1))).take NOISE_TOP_K)).map
        (fun b => b.map TweetEmbedded.content)) ∧
    ((wTs.map TweetEmbedded.content).Nodup →
      ∀ t ∈ (sortDescBy (fun t => t.tweet.engagement)
          (wTs.filter (fun t => t.cluster_id = -1))).drop NOISE_TOP_K,
        ∀ p ∈ Clusterer.group_by_cluster wSl wTs, ∀ u ∈ p.2,
          u.content ≠ t.content) :=
  noise_triage wSl wTs (fun l => by simp [wSl])

/-! ## Claim C2 — size bounds -/

theorem addToGroups_ne_nil (g : Groups) (cid : Int) (t : TweetEmbedded)
    (h : ∀ q ∈ g, q.2 ≠ []) : ∀ q ∈ addToGroups g cid t, q.2 ≠ [] := by
  induction g with
  | nil =>
      intro q hq
      rcases List.mem_singleton.1 hq with rfl
      simp
  | cons p rest ih =>
      obtain ⟨k, ms⟩ := p
      intro q hq
      by_cases hk : k = cid
      · rw [addToGroups, if_pos hk] at hq
        rcases List.mem_cons.1 hq with rfl | hq
        · simp
        · exact h q (List.mem_cons_of_mem _ hq)
      · rw [addToGroups, if_neg hk] at hq
        rcases List.mem_cons.1 hq with rfl | hq
        · exact h _ (List.mem_cons_self _ _)
        · exact ih (fun r hr => h r (List.mem_cons_of_mem _ hr)) q hq

theorem foldl_partitionStep_ne_nil (pairs : List (TweetEmbedded × Int)) :
    ∀ acc : Groups × List TweetEmbedded, (∀ q ∈ acc.1, q.2 ≠ []) →
      ∀ q ∈ (pairs.foldl partitionStep acc).1, q.2 ≠ [] := by
  induction pairs with
  | nil => intro acc h; exact h
  | cons p ps ih =>
      intro acc h
      rw [List.foldl_cons]
      by_cases hp : p.2 = -1
      · simp only [partitionStep, if_pos hp]
        exact ih _ h
      · simp only [partitionStep, if_neg hp]
        exact ih _ (addToGroups_ne_nil _ _ _ h)

theorem partitionLabeled_ne_nil (pairs : List (TweetEmbedded × Int)) :
    ∀ q ∈ (partitionLabeled pairs).1, q.2 ≠ [] :=
  foldl_partitionStep_ne_nil pairs ([], []) (by intro q hq; simp at hq)

theorem sub_cluster_ne_nil (sl : List TweetEmbedded → List Int)
    (ms : List TweetEmbedded) :
    ∀ c ∈ Clusterer.sub_cluster sl ms, c ≠ [] := by
  intro c hc
  by_cases h : 1 < nSub (sl ms)
  · simp only [Clusterer.sub_cluster, if_pos h] at hc
    have hvals : ∀ b ∈ (partitionLabeled (ms.zip (sl ms))).1.map
        (fun g => g.2), b ≠ [] := by
      intro b hb
      rcases List.mem_map.1 hb with ⟨q, hq, rfl⟩
      exact partitionLabeled_ne_nil _ q hq
    revert hc
    cases hG : (partitionLabeled (ms.zip (sl ms))).1.map (fun g => g.2) with
    | nil => intro hc; simp at hc
    | cons r0 rest =>
        cases hN : (partitionLabeled (ms.zip (sl ms))).2 with
        | nil =>
            intro hc
            rcases List.mem_cons.1 hc with rfl | hc
            · exact hvals c (hG ▸ List.mem_cons_self _ _)
            · exact hvals c (hG ▸ List.mem_cons_of_mem _ hc)
        | cons n0 nrest =>
            intro hc
            rcases List.mem_cons.1 hc with rfl | hc
            · simp
            · exact hvals c (hG ▸ List.mem_cons_of_mem _ hc)
  · simp only [Clusterer.sub_cluster, if_neg h] at hc
    exact chunksOf_ne_nil _ _ c hc

theorem foldl_pushGroup_ne_nil (l : List (List TweetEmbedded)) :
    ∀ acc : Groups × Int, (∀ p ∈ acc.1, p.2 ≠ []) → (∀ b ∈ l, b ≠ []) →
      ∀ p ∈ (l.foldl pushGroup acc).1, p.2 ≠ [] := by
  induction l with
  | nil => intro acc h _; exact h
  | cons g gs ih =>
      intro acc h hl
      rw [List.foldl_cons]
      refine ih _ ?_ (fun b hb => hl b (List.mem_cons_of_mem _ hb))
      intro p hp
      rcases List.mem_append.1 hp with hp | hp
      · exact h p hp
      · rcases List.mem_singleton.1 hp with rfl
        have := hl g (List.mem_cons_self _ _)
        simp only [relabel]
        intro hcon
        exact this (List.map_eq_nil_iff.1 hcon)

theorem foldl_splitStep_ne_nil (sl : List TweetEmbedded → List Int)
    (gs : Groups) :
    ∀ acc : Groups × Int, (∀ p ∈ acc.1, p.2 ≠ []) → (∀ g ∈ gs, g.2 ≠ []) →
      ∀ p ∈ (gs.foldl (splitStep sl) acc).1, p.2 ≠ [] := by
  induction gs with
  | nil => intro acc h _; exact h
  | cons g rest ih =>
      intro acc h hgs
      rw [List.foldl_cons]
      refine ih _ ?_ (fun b hb => hgs b (List.mem_cons_of_mem _ hb))
      by_cases hm : MAX_CLUSTER_SIZE < g.2.length
      · simp only [splitStep, if_pos hm]
        exact foldl_pushGroup_ne_nil _ _ h (sub_cluster_ne_nil sl g.2)
      · simp only [splitStep, if_neg hm]
        exact foldl_pushGroup_ne_nil [g.2] _ h
          (by intro b hb; rcases List.mem_singleton.1 hb with rfl;
              exact hgs g (List.mem_cons_self _ _))

theorem foldl_pushGroup_size (C : Prop) (l : List (List TweetEmbedded)) :
    ∀ acc : Groups × Int,
      (∀ p ∈ acc.1, p.2.length ≤ MAX_CLUSTER_SIZE ∨ C) →
      (∀ b ∈ l, b.length ≤ MAX_CLUSTER_SIZE ∨ C) →
      ∀ p ∈ (l.foldl pushGroup acc).1, p.2.length ≤ MAX_CLUSTER_SIZE ∨ C := by
  induction l with
  | nil => intro acc h _; exact h
  | cons g gs ih =>
      intro acc h hl
      rw [List.foldl_cons]
      refine ih _ ?_ (fun b hb => hl b (List.mem_cons_of_mem _ hb))
      intro p hp
      rcases List.mem_append.1 hp with hp | hp
      · exact h p hp
      · rcases List.mem_singleton.1 hp with rfl
        have := hl g (List.mem_cons_self _ _)
        simpa [relabel_length] using this

theorem foldl_splitStep_size (sl : List TweetEmbedded → List Int)
    (G0 : Groups) (gs : Groups) (hgs : ∀ g ∈ gs, g ∈ G0) :
    ∀ acc : Groups × Int,
      (∀ p ∈ acc.1, p.2.length ≤ MAX_CLUSTER_SIZE ∨
        ∃ g ∈ G0, MAX_CLUSTER_SIZE < g.2.length ∧ 1 < nSub (sl g.2)) →
      ∀ p ∈ (gs.foldl (splitStep sl) acc).1,
        p.2.length ≤ MAX_CLUSTER_SIZE ∨
          ∃ g ∈ G0, MAX_CLUSTER_SIZE < g.2.length ∧ 1 < nSub (sl g.2) := by
  induction gs with
  | nil => intro acc h; exact h
  | cons g rest ih =>
      intro acc h
      rw [List.foldl_cons]
      refine ih (fun b hb => hgs b (List.mem_cons_of_mem _ hb)) _ ?_
      by_cases hm : MAX_CLUSTER_SIZE < g.2.length
      · simp only [splitStep, if_pos hm]
        refine foldl_pushGroup_size _ _ _ h ?_
        intro b hb
        by_cases hs : 1 < nSub (sl g.2)
        · exact Or.inr ⟨g, hgs g (List.mem_cons_self _ _), hm, hs⟩
        · rw [Clusterer.sub_cluster, if_neg hs] at hb
          exact Or.inl (chunksOf_length_le _ (by rw [MAX_CLUSTER_SIZE]; omega) _ b hb)
      · simp only [splitStep, if_neg hm]
        refine foldl_pushGroup_size _ [g.2] _ h ?_
        intro b hb
        rcases List.mem_singleton.1 hb with rfl
        exact Or.inl (by omega)

/-- C2 (amended): every group returned by `group_by_cluster` is non-empty,
and a group can exceed `MAX_CLUSTER_SIZE` only if it came from the
tighter-threshold sub-clustering of a mega-cluster that did separate
(`nSub > 1`); in particular the non-mega clusters, the noise batches, and
the deterministic fallback chunks (final conjunct, whenever sub-clustering
yields at most one sub-cluster) all respect the `MAX_CLUSTER_SIZE` bound.
The original claim's bound on the sub-clustering path itself is refuted by
`size_bound_counterexample`. -/
theorem size_bound_amended (sl : List TweetEmbedded → List Int)
    (ts : List TweetEmbedded) :
    (∀ p ∈ Clusterer.group_by_cluster sl ts, 1 ≤ p.2.length) ∧
    (∀ p ∈ Clusterer.group_by_cluster sl ts,
      MAX_CLUSTER_SIZE < p.2.length →
        ∃ g ∈ (partitionByCid ts).1,
          MAX_CLUSTER_SIZE < g.2.length ∧ 1 < nSub (sl g.2)) ∧
    (∀ ms : List TweetEmbedded, nSub (sl ms) ≤ 1 →
      ∀ c ∈ Clusterer.sub_cluster sl ms, c.length ≤ MAX_CLUSTER_SIZE) := by
  have hunfold : Clusterer.group_by_cluster sl ts =
      ((chunksOf NOISE_BATCH_SIZE
        ((sortDescBy (fun t => t.tweet.engagement)
          ((partitionByCid ts).2)).take NOISE_TOP_K)).foldl
        pushGroup
        ((partitionByCid ts).1.foldl (splitStep sl) ([], 0))).1 := by
    rw [Clusterer.group_by_cluster]
  refine ⟨?_, ?_, ?_⟩
  · intro p hp
    rw [hunfold] at hp
    have hfg : ∀ q ∈ ((partitionByCid ts).1.foldl (splitStep sl) ([], 0)).1,
        q.2 ≠ [] := by
      refine foldl_splitStep_ne_nil sl _ _ (by intro q hq; simp at hq) ?_
      intro g hg
      exact partitionLabeled_ne_nil _ g hg
    have := foldl_pushGroup_ne_nil _ _ hfg
      (chunksOf_ne_nil _ _) p hp
    have hne : p.2 ≠ [] := this
    have : 0 < p.2.length := List.length_pos.2 hne
    omega
  · intro p hp hbig
    rw [hunfold] at hp
    have hfg : ∀ q ∈ ((partitionByCid ts).1.foldl (splitStep sl) ([], 0)).1,
        q.2.length ≤ MAX_CLUSTER_SIZE ∨
          ∃ g ∈ (partitionByCid ts).1,
            MAX_CLUSTER_SIZE < g.2.length ∧ 1 < nSub (sl g.2) :=
      foldl_splitStep_size sl _ _ (fun g hg => hg) _ (by intro q hq; simp at hq)
    have hout := foldl_pushGroup_size _ _ _ hfg ?_ p hp
    · rcases hout with hout | hout
      · omega
      · exact hout
    · intro b hb
      have h5 := chunksOf_length_le NOISE_BATCH_SIZE
        (by rw [NOISE_BATCH_SIZE]; omega) _ b hb
      exact Or.inl (by rw [NOISE_BATCH_SIZE] at h5; rw [MAX_CLUSTER_SIZE]; omega)
  · intro ms hle c hc
    rw [Clusterer.sub_cluster, if_neg (by omega)] at hc
    exact chunksOf_length_le _ (by rw [MAX_CLUSTER_SIZE]; omega) _ c hc

/-- Witness for C2's amended statement at the clusterer witness input. -/
theorem size_bound_amended_witness :
    (∀ p ∈ Clusterer.group_by_cluster wSl wTs, 1 ≤ p.2.length) ∧
    (∀ p ∈ Clusterer.group_by_cluster wSl wTs,
      MAX_CLUSTER_SIZE < p.2.length →
        ∃ g ∈ (partitionByCid wTs).1,
          MAX_CLUSTER_SIZE < g.2.length ∧ 1 < nSub (wSl g.2)) ∧
    (∀ ms : List TweetEmbedded, nSub (wSl ms) ≤ 1 →
      ∀ c ∈ Clusterer.sub_cluster wSl ms, c.length ≤ MAX_CLUSTER_SIZE) :=
  size_bound_amended wSl wTs





/-- Counterexample to C2 as stated: on a 32-item mega-cluster whose
sub-clustering separates (`nSub = 2 > 1`, so the deterministic fallback is
never taken), `group_by_cluster` returns a group of size 31, exceeding
`MAX_CLUSTER_SIZE = 30` on the non-fallback path. -/
theorem size_bound_counterexample :
    (Clusterer.group_by_cluster ceSl ceTweets).map (fun p => p.2.length) =
      [31, 1] ∧
    (partitionByCid ceTweets).1.map (fun p => p.2.length) = [32] ∧
    1 < nSub (ceSl ceTweets) ∧ MAX_CLUSTER_SIZE < 31 := by decide

/-! ## Claim C6 — idempotence of `deduplicate_recent` -/

namespace ApifyCollector

theorem mem_updateBest (acc : List (String × TweetRaw)) (t : TweetRaw) :
    ∀ q ∈ updateBest acc t, q ∈ acc ∨ q = (pyStrip t.text, t) := by
  induction acc with
  | nil =>
      intro q hq
      rcases List.mem_singleton.1 hq with rfl
      exact Or.inr rfl
  | cons p rest ih =>
      obtain ⟨k, b⟩ := p
      intro q hq
      by_cases hk : k = pyStrip t.text
      · rw [updateBest, if_pos hk] at hq
        by_cases he : b.engagement < t.engagement
        · rw [if_pos he] at hq
          rcases List.mem_cons.1 hq with rfl | hq
          · exact Or.inr (by rw [hk])
          · exact Or.inl (List.mem_cons_of_mem _ hq)
        · rw [if_neg he] at hq
          rcases List.mem_cons.1 hq with rfl | hq
          · exact Or.inl (List.mem_cons_self _ _)
          · exact Or.inl (List.mem_cons_of_mem _ hq)
      · rw [updateBest, if_neg hk] at hq
        rcases List.mem_cons.1 hq with rfl | hq
        · exact Or.inl (List.mem_cons_self _ _)
        · rcases ih q hq with h | h
          · exact Or.inl (List.mem_cons_of_mem _ h)
          · exact Or.inr h

theorem mem_foldl_updateBest (ts : List TweetRaw) :
    ∀ (acc : List (String × TweetRaw)) q, q ∈ ts.foldl updateBest acc →
      q ∈ acc ∨ q.2 ∈ ts := by
  induction ts with
  | nil => intro acc q hq; exact Or.inl hq
  | cons t ts ih =>
      intro acc q hq
      rw [List.foldl_cons] at hq
      rcases ih _ q hq with h | h
      · rcases mem_updateBest acc t q h with h' | h'
        · exact Or.inl h'
        · subst h'
          exact Or.inr (List.mem_cons_self _ _)
      · exact Or.inr (List.mem_cons_of_mem _ h)

theorem mem_dedupExactText (ts : List TweetRaw) (x : TweetRaw)
    (hx : x ∈ dedupExactText ts) : x ∈ ts := by
  rw [dedupExactText] at hx
  rcases List.mem_map.1 hx with ⟨q, hq, rfl⟩
  rcases mem_foldl_updateBest ts [] q hq with h | h
  · simp at h
  · exact h

theorem suppressNearDups_sublist :
    ∀ (ts : List TweetRaw) (seen : List (String × Int)),
      List.Sublist (suppressNearDups seen ts) ts := by
  intro ts
  induction ts with
  | nil => intro seen; simp [suppressNearDups]
  | cons t ts ih =>
      intro seen
      rw [suppressNearDups]
      by_cases h : shouldDiscard seen t
      · rw [if_pos h]
        exact (ih seen).cons t
      · rw [if_neg h]
        exact (ih (updateSeen seen t)).cons₂ t

theorem suppressNearDups_idem :
    ∀ (ts : List TweetRaw) (seen : List (String × Int)),
      suppressNearDups seen (suppressNearDups seen ts) =
        suppressNearDups seen ts := by
  intro ts
  induction ts with
  | nil => intro seen; rfl
  | cons t ts ih =>
      intro seen
      rw [suppressNearDups]
      by_cases h : shouldDiscard seen t
      · rw [if_pos h]
        exact ih seen
      · rw [if_neg h]
        rw [suppressNearDups, if_neg h]
        rw [ih (updateSeen seen t)]

theorem updateBest_keys (acc : List (String × TweetRaw)) (t : TweetRaw) :
    (updateBest acc t).map (fun q => q.1) =
      if pyStrip t.text ∈ acc.map (fun q => q.1) then acc.map (fun q => q.1)
      else acc.map (fun q => q.1) ++ [pyStrip t.text] := by
  induction acc with
  | nil => simp [updateBest]
  | cons p rest ih =>
      obtain ⟨k, b⟩ := p
      by_cases hk : k = pyStrip t.text
      · rw [updateBest, if_pos hk]
        by_cases he : b.engagement < t.engagement
        · rw [if_pos he]
          simp [hk]
        · rw [if_neg he]
          simp [hk]
      · rw [updateBest, if_neg hk]
        simp only [List.map_cons]
        rw [ih]
        by_cases hm : pyStrip t.text ∈ rest.map (fun q => q.1)
        · rw [if_pos hm, if_pos (by simp [hm])]
        · rw [if_neg hm, if_neg (by simp [hm, Ne.symm hk]), List.cons_append]

theorem foldl_updateBest_keys_nodup (ts : List TweetRaw) :
    ∀ acc : List (String × TweetRaw), ((acc.map (fun q => q.1)).Nodup) →
      (((ts.foldl updateBest acc).map (fun q => q.1)).Nodup) := by
  induction ts with
  | nil => intro acc h; exact h
  | cons t ts ih =>
      intro acc h
      rw [List.foldl_cons]
      apply ih
      rw [updateBest_keys]
      by_cases hm : pyStrip t.text ∈ acc.map (fun q => q.1)
      · rw [if_pos hm]; exact h
      · rw [if_neg hm]
        simp [List.nodup_append, h, hm]

theorem foldl_updateBest_key_inv (ts : List TweetRaw) :
    ∀ acc : List (String × TweetRaw), (∀ q ∈ acc, q.1 = pyStrip q.2.text) →
      ∀ q ∈ ts.foldl updateBest acc, q.1 = pyStrip q.2.text := by
  induction ts with
  | nil => intro acc h; exact h
  | cons t ts ih =>
      intro acc h
      rw [List.foldl_cons]
      apply ih
      intro q hq
      rcases mem_updateBest acc t q hq with h' | h'
      · exact h q h'
      · subst h'; rfl

theorem dedupExactText_trim_nodup (ts : List TweetRaw) :
    ((dedupExactText ts).map (fun t => pyStrip t.text)).Nodup := by
  rw [dedupExactText, List.map_map]
  have hinv := foldl_updateBest_key_inv ts [] (by intro q hq; simp at hq)
  have hkeys := foldl_updateBest_keys_nodup ts [] (by simp)
  have : (ts.foldl updateBest []).map
      ((fun t : TweetRaw => pyStrip t.text) ∘ (fun q => q.2)) =
      (ts.foldl updateBest []).map (fun q => q.1) := by
    apply List.map_congr_left
    intro q hq
    exact (hinv q hq).symm
  rw [this]
  exact hkeys

theorem updateBest_of_not_mem (acc : List (String × TweetRaw)) (t : TweetRaw)
    (h : pyStrip t.text ∉ acc.map (fun q => q.1)) :
    updateBest acc t = acc ++ [(pyStrip t.text, t)] := by
  induction acc with
  | nil => rfl
  | cons p rest ih =>
      obtain ⟨k, b⟩ := p
      have hk : k ≠ pyStrip t.text := by
        intro hk
        exact h (by simp [hk])
      rw [updateBest, if_neg hk, List.cons_append]
      rw [ih (by intro hm; exact h (by simp [hm]))]

theorem foldl_updateBest_of_nodup (ts : List TweetRaw) :
    ∀ acc : List (String × TweetRaw),
      ((acc.map (fun q => q.1) ++ ts.map (fun t => pyStrip t.text)).Nodup) →
      (ts.foldl updateBest acc).map (fun q => q.2) =
        acc.map (fun q => q.2) ++ ts := by
  induction ts with
  | nil => intro acc h; simp
  | cons t ts ih =>
      intro acc h
      have hnotmem : pyStrip t.text ∉ acc.map (fun q => q.1) := by
        rcases List.nodup_append.1 h with ⟨_, _, hdisj⟩
        intro hm
        exact hdisj hm (by simp)
      rw [List.foldl_cons, updateBest_of_not_mem acc t hnotmem]
      rw [ih (acc ++ [(pyStrip t.text, t)]) (by
        simp only [List.map_append, List.map_cons] at h ⊢
        simpa [List.append_assoc] using h)]
      simp

theorem dedupExactText_of_nodup (ts : List TweetRaw)
    (h : (ts.map (fun t => pyStrip t.text)).Nodup) : dedupExactText ts = ts := by
  rw [dedupExactText, foldl_updateBest_of_nodup ts [] (by simpa using h)]
  simp

theorem removeRTs_eq_self (ts : List TweetRaw)
    (h : ∀ t ∈ ts, ¬ startsWithRT (pyStrip t.text)) : removeRTs ts = ts := by
  rw [removeRTs, List.filter_eq_self]
  intro t ht
  simpa using h t ht

theorem mem_removeRTs_not_rt (ts : List TweetRaw) (t : TweetRaw)
    (h : t ∈ removeRTs ts) : ¬ startsWithRT (pyStrip t.text) := by
  have := List.of_mem_filter h
  simpa using this

theorem dedupNearDups_pairwise (ts : List TweetRaw) :
    (dedupNearDups ts).Pairwise (fun a b => b.engagement ≤ a.engagement) := by
  rw [dedupNearDups]
  exact (sortDescBy_pairwise TweetRaw.engagement ts).sublist
    (suppressNearDups_sublist _ [])

theorem mem_dedupNearDups (ts : List TweetRaw) (x : TweetRaw)
    (hx : x ∈ dedupNearDups ts) : x ∈ ts := by
  rw [dedupNearDups] at hx
  have := (suppressNearDups_sublist _ []).mem hx
  exact (sortDescBy_mem _ _ _).1 this

theorem dedupNearDups_idem (ts : List TweetRaw) :
    dedupNearDups (dedupNearDups ts) = dedupNearDups ts := by
  conv_lhs => rw [dedupNearDups]
  rw [sortDescBy_of_pairwise _ _ (dedupNearDups_pairwise ts)]
  rw [dedupNearDups]
  exact suppressNearDups_idem _ []

/-- C6: running `_dedup` (the spec's `deduplicate_recent`) a second time on
its own output returns the output unchanged — no further items are
removed. -/
theorem dedup_recent_idempotent (ts : List TweetRaw) :
    dedup (dedup ts) = dedup ts := by
  have hmem : ∀ x ∈ dedup ts, x ∈ removeRTs ts := by
    intro x hx
    rw [dedup] at hx
    exact mem_dedupExactText _ _ (mem_dedupNearDups _ _ hx)
  have h1 : removeRTs (dedup ts) = dedup ts :=
    removeRTs_eq_self _ (fun t ht => mem_removeRTs_not_rt ts t (hmem t ht))
  have h2 : dedupExactText (dedup ts) = dedup ts := by
    apply dedupExactText_of_nodup
    have hsub : List.Sublist (dedup ts)
        (sortDescBy TweetRaw.engagement (dedupExactText (removeRTs ts))) := by
      rw [dedup, dedupNearDups]
      exact suppressNearDups_sublist _ []
    have hnd : ((sortDescBy TweetRaw.engagement
        (dedupExactText (removeRTs ts))).map (fun t => pyStrip t.text)).Nodup :=
      (((sortDescBy_perm TweetRaw.engagement _).map _).nodup_iff).2
        (dedupExactText_trim_nodup _)
    exact hnd.sublist (hsub.map _)
  show dedupNearDups (dedupExactText (removeRTs (dedup ts))) = dedup ts
  rw [h1, h2, dedup]
  exact dedupNearDups_idem _

end ApifyCollector

/-! ## Claim C4 — near-duplicate suppression -/

namespace ApifyCollector

theorem lookupSeen_insertSeen_self (s : List (String × Int)) (k : String)
    (v : Int) : lookupSeen (insertSeen s k v) k = some v := by
  induction s with
  | nil => simp [insertSeen, lookupSeen]
  | cons p rest ih =>
      obtain ⟨k', v'⟩ := p
      by_cases h : k' = k
      · rw [insertSeen, if_pos h, lookupSeen, if_pos h]
      · rw [insertSeen, if_neg h, lookupSeen, if_neg h]
        exact ih

theorem lookupSeen_insertSeen_ne (s : List (String × Int)) (k k' : String)
    (v : Int) (h : k' ≠ k) :
    lookupSeen (insertSeen s k' v) k = lookupSeen s k := by
  induction s with
  | nil => simp [insertSeen, lookupSeen, h]
  | cons p rest ih =>
      obtain ⟨k₀, v₀⟩ := p
      by_cases h0 : k₀ = k'
      · rw [insertSeen, if_pos h0, lookupSeen, lookupSeen]
        subst h0
        rw [if_neg h, if_neg h]
      · rw [insertSeen, if_neg h0, lookupSeen, lookupSeen]
        by_cases hk : k₀ = k
        · rw [if_pos hk, if_pos hk]
        · rw [if_neg hk, if_neg hk]
          exact ih

theorem lookupSeen_updateSeen_ne (seen : List (String × Int)) (t : TweetRaw)
    (k : String) (h : nearDupKey t ≠ k) :
    lookupSeen (updateSeen seen t) k = lookupSeen seen k := by
  rw [updateSeen]
  cases t.created_at with
  | none => rfl
  | some c => exact lookupSeen_insertSeen_ne seen k _ c h

theorem shouldDiscard_of_none (seen : List (String × Int)) (t : TweetRaw)
    (h : t.created_at = none) : shouldDiscard seen t = false := by
  rw [shouldDiscard, h]
  cases lookupSeen seen (nearDupKey t) <;> rfl

theorem suppressNearDups_none_mem :
    ∀ (ts : List TweetRaw) (seen : List (String × Int)) (t : TweetRaw),
      t ∈ ts → t.created_at = none → t ∈ suppressNearDups seen ts := by
  intro ts
  induction ts with
  | nil => intro seen t ht; simp at ht
  | cons u ts ih =>
      intro seen t ht hnone
      rw [suppressNearDups]
      rcases List.mem_cons.1 ht with rfl | ht
      · rw [shouldDiscard_of_none seen t hnone]
        simp only [Bool.false_eq_true, if_false]
        exact List.mem_cons_self _ _
      · by_cases h : shouldDiscard seen u
        · rw [if_pos h]
          exact ih seen t ht hnone
        · rw [if_neg h]
          exact List.mem_cons_of_mem _ (ih _ t ht hnone)

/-- The per-key timestamp discipline of the stage-3 loop: along the kept
list, consecutive timestamped tweets sharing a key are at least 7200 seconds
apart, and the first such timestamp is at least 7200 seconds from whatever
the `seen` dict already holds for that key. -/
theorem suppressNearDups_chain (k : String) :
    ∀ (ts : List TweetRaw) (seen : List (String × Int)),
      (((suppressNearDups seen ts).filter
          (fun t => nearDupKey t = k)).filterMap
          (fun t => t.created_at)).Chain'
        (fun a b => 7200 ≤ (b - a).natAbs) ∧
      (∀ p, lookupSeen seen k = some p →
        ∀ c, (((suppressNearDups seen ts).filter
            (fun t => nearDupKey t = k)).filterMap
            (fun t => t.created_at)).head? = some c →
          7200 ≤ (c - p).natAbs) := by
  intro ts
  induction ts with
  | nil =>
      intro seen
      exact ⟨List.chain'_nil, by intro p _ c hc; simp [suppressNearDups] at hc⟩
  | cons t ts ih =>
      intro seen
      rw [suppressNearDups]
      by_cases hd : shouldDiscard seen t
      · rw [if_pos hd]
        exact ih seen
      · rw [if_neg hd]
        by_cases hk : nearDupKey t = k
        · rw [List.filter_cons, if_pos (by simp [hk])]
          cases hca : t.created_at with
          | none =>
              rw [List.filterMap_cons, hca]
              have hupd : updateSeen seen t = seen := by
                rw [updateSeen, hca]
              rw [hupd]
              exact ih seen
          | some c =>
              rw [List.filterMap_cons, hca]
              have hupd : lookupSeen (updateSeen seen t) k = some c := by
                rw [updateSeen, hca, ← hk]
                exact lookupSeen_insertSeen_self seen _ c
              have hrest := ih (updateSeen seen t)
              constructor
              · rw [List.chain'_cons']
                refine ⟨?_, hrest.1⟩
                intro c' hc'
                exact hrest.2 c hupd c' (Option.mem_def.1 hc')
              · intro p hp c₀ hc₀
                simp only [List.head?_cons, Option.some.injEq] at hc₀
                subst hc₀
                rw [shouldDiscard, hk, hp, hca] at hd
                simpa using hd
        · rw [List.filter_cons, if_neg (by simp [hk])]
          have := ih (updateSeen seen t)
          refine ⟨this.1, ?_⟩
          intro p hp c hc
          exact this.2 p (by rw [lookupSeen_updateSeen_ne seen t k hk]; exact hp) c hc

/-- C4 (amended): in the third stage of `deduplicate_recent` the items are
processed — and returned — in engagement-descending order; for each
`(author, first-80-chars)` key, any two *consecutively kept* timestamped
items lie at least 2 hours apart (an item is discarded exactly against the
most recently kept timestamped item with its key, whose timestamp
overwrites the `seen` entry — not against every already-kept item, which is
what `near_dup_suppression_counterexample` refutes); and an item lacking a
timestamp is always kept, whether or not its key was seen. -/
theorem near_dup_suppression_amended (ts : List TweetRaw) :
    List.Sublist (dedupNearDups ts) (sortDescBy TweetRaw.engagement ts) ∧
    (dedupNearDups ts).Pairwise (fun a b => b.engagement ≤ a.engagement) ∧
    (∀ k : String,
      (((dedupNearDups ts).filter (fun t => nearDupKey t = k)).filterMap
          (fun t => t.created_at)).Chain'
        (fun a b => 7200 ≤ (b - a).natAbs)) ∧
    (∀ t ∈ ts, t.created_at = none → t ∈ dedupNearDups ts) := by
  refine ⟨?_, dedupNearDups_pairwise ts, ?_, ?_⟩
  · rw [dedupNearDups]
    exact suppressNearDups_sublist _ []
  · intro k
    rw [dedupNearDups]
    exact (suppressNearDups_chain k _ []).1
  · intro t ht hnone
    rw [dedupNearDups]
    exact suppressNearDups_none_mem _ [] t
      ((sortDescBy_mem _ ts t).2 ht) hnone

/-- Witness for C4's amended statement at a concrete two-item input (same
author, one item without timestamp). -/
theorem near_dup_suppression_amended_witness :
    List.Sublist
      (dedupNearDups
        [⟨"1", "a", "", "hello", some 0, 0, 3, 0, 0⟩,
         ⟨"2", "a", "", "hello", none, 0, 1, 0, 0⟩])
      (sortDescBy TweetRaw.engagement
        [⟨"1", "a", "", "hello", some 0, 0, 3, 0, 0⟩,
         ⟨"2", "a", "", "hello", none, 0, 1, 0, 0⟩]) ∧
    (dedupNearDups
        [⟨"1", "a", "", "hello", some 0, 0, 3, 0, 0⟩,
         ⟨"2", "a", "", "hello", none, 0, 1, 0, 0⟩]).Pairwise
      (fun a b => b.engagement ≤ a.engagement) ∧
    (∀ k : String,
      (((dedupNearDups
          [⟨"1", "a", "", "hello", some 0, 0, 3, 0, 0⟩,
           ⟨"2", "a", "", "hello", none, 0, 1, 0, 0⟩]).filter
          (fun t => nearDupKey t = k)).filterMap
          (fun t => t.created_at)).Chain'
        (fun a b => 7200 ≤ (b - a).natAbs)) ∧
    (∀ t ∈ [(⟨"1", "a", "", "hello", some 0, 0, 3, 0, 0⟩ : TweetRaw),
            ⟨"2", "a", "", "hello", none, 0, 1, 0, 0⟩],
      t.created_at = none →
        t ∈ dedupNearDups
          [⟨"1", "a", "", "hello", some 0, 0, 3, 0, 0⟩,
           ⟨"2", "a", "", "hello", none, 0, 1, 0, 0⟩]) :=
  near_dup_suppression_amended
    [⟨"1", "a", "", "hello", some 0, 0, 3, 0, 0⟩,
     ⟨"2", "a", "", "hello", none, 0, 1, 0, 0⟩]

end ApifyCollector











/-- Counterexample to C4 as stated: tweets A (engagement 10, t = 0 h),
B (5, t = 3 h), C (1, t = 1 h) share author and first-80-characters key.
The claim says C is discarded, since the already-kept A has the same key
and lies within 2 hours of C.  The code keeps all three: C is compared only
against the `seen` timestamp, which B overwrote to 3 h (|1 h − 3 h| ≥ 2 h),
so the output contains the within-2-hours pair (A, C). -/
theorem near_dup_suppression_counterexample :
    ApifyCollector.dedup [ceTweetA, ceTweetB, ceTweetC] =
      [ceTweetA, ceTweetB, ceTweetC] ∧
    ceTweetA ∈ ApifyCollector.dedup [ceTweetA, ceTweetB, ceTweetC] ∧
    nearDupViolation ceTweetA ceTweetC = true := by decide

end AINewsRadar
